import Mathlib

/-!
# Grid-based non-maximal suppression of `gcnv2.cpp`

Shallow embedding of `NonMaximalSuppression` (src/okvis_frontend/src/gcnv2.cpp,
lines 93-160) and theorems about it.

Conventions of the embedding.

* A `cv::Mat` is a pair of dimensions and a total function from `(row, col)` to
  elements. `Mat.atRead` / `Mat.atWrite` embed `mat.at<T>(row, col)` used as an
  rvalue / lvalue. An access outside `rows × cols` is undefined behaviour in the
  source; the embedding returns `none` there, and `none` propagates.
* `kpts_raw` is the list of rows of the raw keypoint matrix after the `(int)`
  conversion the source applies at every read (lines 108, 109, 119, 120, 143,
  144): one pair `(u, v)` of integers per row.
* `desc_raw` is the list of rows of the raw descriptor matrix; a row is the 32
  bytes `desc_raw.at<unsigned char>(idx, 0 .. 31)` and is kept abstract (type
  `D`), since lines 152-158 copy rows whole.
* `float` is kept abstract: `FloatOps F` supplies the `int`-to-`float`
  conversion, the `float` product and the literal `1.0f`.
* `img_width`, `img_height`, `dist_threshold` are naturals: `cv::Mat` creation
  and `cv::copyMakeBorder` reject negative values. `int` overflow is not
  modelled (all computed coordinates are bounded by `img_width + 2 *
  dist_threshold` and `img_height + 2 * dist_threshold`).
-/

namespace gcnv2

/-! ## Matrices -/

/-- A `cv::Mat` with elements of type `α`: `rows × cols`, element `(row, col)` is
`data row col`. -/
structure Mat (α : Type) where
  rows : Nat
  cols : Nat
  data : Int → Int → α

namespace Mat

variable {α : Type}

/-- Result of `cv::Mat(cv::Size(width, height), type)` followed by `setTo(0)`
(lines 101-104). -/
def zeros (width height : Nat) : Mat Nat :=
  { rows := height, cols := width, data := fun _ _ => 0 }

/-- Read of `m.at<T>(row, col)`; `none` outside the matrix. -/
def atRead (m : Mat α) (row col : Int) : Option α :=
  if 0 ≤ row ∧ row < m.rows ∧ 0 ≤ col ∧ col < m.cols then some (m.data row col) else none

/-- Assignment `m.at<T>(row, col) = x`; `none` outside the matrix. -/
def atWrite (m : Mat α) (row col : Int) (x : α) : Option (Mat α) :=
  if 0 ≤ row ∧ row < m.rows ∧ 0 ≤ col ∧ col < m.cols then
    some { rows := m.rows, cols := m.cols,
           data := fun i j => if i = row ∧ j = col then x else m.data i j }
  else none

end Mat

/-- Embedding of `cv::copyMakeBorder(src, dst, top, bottom, left, right,
cv::BORDER_CONSTANT, value)`: the source matrix is placed at offset
`(top, left)` of a larger matrix whose other cells hold `value`. -/
def copyMakeBorder (src : Mat Nat) (top bottom left right : Nat) (value : Nat) : Mat Nat :=
  { rows := src.rows + top + bottom
    cols := src.cols + left + right
    data := fun i j =>
      if 0 ≤ i - top ∧ i - top < src.rows ∧ 0 ≤ j - left ∧ j - left < src.cols then
        src.data (i - top) (j - left)
      else value }

/-! ## Floating point and key points -/

/-- The `float` operations the function uses: conversion of an `int`, product,
and the literal `1.0f`. -/
structure FloatOps (F : Type) where
  ofInt : Int → F
  mul : F → F → F
  one : F

/-- A `cv::KeyPoint(x, y, size)`; the remaining fields keep their defaults. -/
structure KeyPoint (F : Type) where
  x : F
  y : F
  size : F
deriving DecidableEq, Repr

/-- Values of the loop variable of `for (int a = lo; a < hi; ++a)`, in order. -/
def intRange (lo hi : Int) : List Int :=
  (List.range (hi - lo).toNat).map (fun (a : Nat) => lo + (a : Int))

/-! ## The three passes -/

/-- First loop (lines 106-112), started at row index `i`: marks the cell of every
candidate with 1 and stores the row index, converted to `unsigned short`, in the
index map. -/
def firstPass : List (Int × Int) → Nat → Mat Nat → Mat Nat → Option (Mat Nat × Mat Nat)
  | [], _, kpt_grid, kpt_index => some (kpt_grid, kpt_index)
  | (u, v) :: rest, i, kpt_grid, kpt_index =>
    (kpt_grid.atWrite v u 1).bind fun g =>
    (kpt_index.atWrite v u (i % 65536)).bind fun ix =>
    firstPass rest (i + 1) g ix

/-- Loop over `k` (lines 126-132) for a fixed `j`, over the remaining values of
`k`. -/
def clearInner (v u j : Int) : List Int → Mat Nat → Option (Mat Nat)
  | [], g => some g
  | k :: ks, g =>
    if j = 0 ∧ k = 0 then clearInner v u j ks g
    else (g.atWrite (v + j) (u + k) 0).bind fun g1 => clearInner v u j ks g1

/-- Loop over `j` (lines 125-132), over the remaining values of `j`. -/
def clearOuter (v u : Int) (dist_threshold : Nat) : List Int → Mat Nat → Option (Mat Nat)
  | [], g => some g
  | j :: js, g =>
    (clearInner v u j (intRange (-(dist_threshold : Int)) ((dist_threshold : Int) + 1)) g).bind
      fun g1 => clearOuter v u dist_threshold js g1

/-- Second loop (lines 117-135) over the remaining candidates, on the padded
grid. -/
def secondPass (dist_threshold : Nat) : List (Int × Int) → Mat Nat → Option (Mat Nat)
  | [], g => some g
  | (u0, v0) :: rest, g =>
    let u := u0 + (dist_threshold : Int)
    let v := v0 + (dist_threshold : Int)
    (g.atRead v u).bind fun c =>
      if c ≠ 1 then secondPass dist_threshold rest g
      else
        (clearOuter v u dist_threshold
            (intRange (-(dist_threshold : Int)) ((dist_threshold : Int) + 1)) g).bind fun g1 =>
        (g1.atWrite v u 2).bind fun g2 =>
        secondPass dist_threshold rest g2

/-- Body of the third loop (lines 141-147) at padded cell `(v, u)`, on the pair
`(_keypoints, valid_idxs)`. -/
def thirdBody {F : Type} (fl : FloatOps F) (kpts_raw : List (Int × Int))
    (kpt_grid kpt_index : Mat Nat) (dist_threshold : Nat) (width_ratio height_ratio : F)
    (u v : Int) (acc : List (KeyPoint F) × List Nat) : Option (List (KeyPoint F) × List Nat) :=
  (kpt_grid.atRead v u).bind fun c =>
    if c = 2 then
      (kpt_index.atRead (v - (dist_threshold : Int)) (u - (dist_threshold : Int))).bind fun idx =>
      (kpts_raw[idx]?).bind fun p =>
        some (acc.1 ++ [{ x := fl.mul (fl.ofInt p.1) width_ratio,
                          y := fl.mul (fl.ofInt p.2) height_ratio,
                          size := fl.one }],
              acc.2 ++ [idx])
    else some acc

/-- Inner loop of the third pass (line 139) over the remaining values of `v`. -/
def thirdInner {F : Type} (fl : FloatOps F) (kpts_raw : List (Int × Int))
    (kpt_grid kpt_index : Mat Nat) (dist_threshold : Nat) (width_ratio height_ratio : F)
    (u : Int) : List Int → List (KeyPoint F) × List Nat → Option (List (KeyPoint F) × List Nat)
  | [], acc => some acc
  | v :: vs, acc =>
    (thirdBody fl kpts_raw kpt_grid kpt_index dist_threshold width_ratio height_ratio u v acc).bind
      fun acc1 =>
        thirdInner fl kpts_raw kpt_grid kpt_index dist_threshold width_ratio height_ratio u vs acc1

/-- Outer loop of the third pass (line 138) over the remaining values of `u`. -/
def thirdOuter {F : Type} (fl : FloatOps F) (kpts_raw : List (Int × Int))
    (kpt_grid kpt_index : Mat Nat) (dist_threshold img_height : Nat)
    (width_ratio height_ratio : F) :
    List Int → List (KeyPoint F) × List Nat → Option (List (KeyPoint F) × List Nat)
  | [], acc => some acc
  | u :: us, acc =>
    (thirdInner fl kpts_raw kpt_grid kpt_index dist_threshold width_ratio height_ratio u
        (intRange (dist_threshold : Int) ((img_height : Int) - (dist_threshold : Int))) acc).bind
      fun acc1 =>
        thirdOuter fl kpts_raw kpt_grid kpt_index dist_threshold img_height
          width_ratio height_ratio us acc1

/-- Third pass (lines 137-148): returns `_keypoints` after the pushes and
`valid_idxs`. -/
def thirdPass {F : Type} (fl : FloatOps F) (kpts_raw : List (Int × Int))
    (kpt_grid kpt_index : Mat Nat) (_keypoints : List (KeyPoint F))
    (dist_threshold img_width img_height : Nat) (width_ratio height_ratio : F) :
    Option (List (KeyPoint F) × List Nat) :=
  thirdOuter fl kpts_raw kpt_grid kpt_index dist_threshold img_height width_ratio height_ratio
    (intRange (dist_threshold : Int) ((img_width : Int) - (dist_threshold : Int)))
    (_keypoints, [])

/-- Descriptor copy (lines 150-158): row `i` of the result is row `valid_idxs[i]`
of `desc_raw`. -/
def copyDescriptors {D : Type} (desc_raw : List D) : List Nat → Option (List D)
  | [] => some []
  | idx :: rest =>
    (desc_raw[idx]?).bind fun d => (copyDescriptors desc_raw rest).map fun ds => d :: ds

/-- The grid after the second pass together with the index map (lines 101-135). -/
def suppress (kpts_raw : List (Int × Int)) (dist_threshold img_width img_height : Nat) :
    Option (Mat Nat × Mat Nat) :=
  (firstPass kpts_raw 0 (Mat.zeros img_width img_height) (Mat.zeros img_width img_height)).bind
    fun gi =>
      (secondPass dist_threshold kpts_raw
          (copyMakeBorder gi.1 dist_threshold dist_threshold dist_threshold dist_threshold 0)).map
        fun g => (g, gi.2)

/-- The function `NonMaximalSuppression` (lines 93-160): returns `_keypoints`
after the call and the matrix `descriptors`. -/
def NonMaximalSuppression {F D : Type} (fl : FloatOps F) (kpts_raw : List (Int × Int))
    (desc_raw : List D) (_keypoints : List (KeyPoint F))
    (dist_threshold img_width img_height : Nat) (width_ratio height_ratio : F) :
    Option (List (KeyPoint F) × List D) :=
  (suppress kpts_raw dist_threshold img_width img_height).bind fun gi =>
  (thirdPass fl kpts_raw gi.1 gi.2 _keypoints dist_threshold img_width img_height
      width_ratio height_ratio).bind fun kv =>
  (copyDescriptors desc_raw kv.2).map fun descriptors => (kv.1, descriptors)

/-- Float operations used for concrete evaluation: integers with their product. -/
def intOps : FloatOps Int := { ofInt := fun n => n, mul := fun a b => a * b, one := 1 }

/-! ## Specification vocabulary -/

/-- Every candidate satisfies `0 ≤ u < W` and `0 ≤ v < H`. -/
def InBounds (W H : Nat) (cands : List (Int × Int)) : Prop :=
  ∀ p ∈ cands, 0 ≤ p.1 ∧ p.1 < (W : Int) ∧ 0 ≤ p.2 ∧ p.2 < (H : Int)

instance (W H : Nat) (cands : List (Int × Int)) : Decidable (InBounds W H cands) := by
  unfold InBounds; infer_instance

/-- Cells `a` and `b` are within `r` of each other in both axes (a cell is near
itself). -/
def near (r : Nat) (a b : Int × Int) : Prop :=
  a.1 - b.1 ≤ (r : Int) ∧ b.1 - a.1 ≤ (r : Int) ∧ a.2 - b.2 ≤ (r : Int) ∧ b.2 - a.2 ≤ (r : Int)

instance (r : Nat) (a b : Int × Int) : Decidable (near r a b) := by
  unfold near; infer_instance

/-- Value held by the index map at cell `c` after the first loop has run over
`l` starting at row index `i`, when the cell held `d` before. -/
def indexAfter : List (Int × Int) → Nat → Int × Int → Nat → Nat
  | [], _, _, d => d
  | p :: rest, i, c, d => indexAfter rest (i + 1) c (if p = c then i % 65536 else d)

/-- Greedy selection in input order: a candidate is kept iff no candidate kept
before it is near it. -/
def keep (r : Nat) : List (Int × Int) → List (Int × Int) → List (Int × Int)
  | [], kept => kept
  | c :: rest, kept =>
    if ∃ k ∈ kept, near r k c then keep r rest kept else keep r rest (kept ++ [c])

/-- State of the padded grid at `(row, col)` during the second loop, when the
cells `kept` have been marked and the candidates `l` are still to be visited. -/
def cellState (r : Nat) (kept l : List (Int × Int)) (row col : Int) : Nat :=
  if (col - (r : Int), row - (r : Int)) ∈ kept then 2
  else if (col - (r : Int), row - (r : Int)) ∈ l ∧
      ∀ k ∈ kept, ¬ near r k (col - (r : Int), row - (r : Int)) then 1
  else 0

/-- The key point pushed for a candidate with raw coordinates `p` (line 145). -/
def emit {F : Type} (fl : FloatOps F) (width_ratio height_ratio : F) (p : Int × Int) :
    KeyPoint F :=
  { x := fl.mul (fl.ofInt p.1) width_ratio, y := fl.mul (fl.ofInt p.2) height_ratio,
    size := fl.one }

/-- Padded cells `(u, v)` visited by the third pass, in the order of the visit. -/
def scanCells (r W H : Nat) : List (Int × Int) :=
  (intRange (r : Int) ((W : Int) - (r : Int))) ×ˢ (intRange (r : Int) ((H : Int) - (r : Int)))

/-- Raw cell `(u, v)` of the padded cell `c`. -/
def rawOf (r : Nat) (c : Int × Int) : Int × Int := (c.1 - (r : Int), c.2 - (r : Int))

/-- Padded cells, in the order of the visit, at which the third pass reads the
value 2 in the grid `g`. -/
def hits (g : Mat Nat) (r W H : Nat) : List (Int × Int) :=
  (scanCells r W H).filter (fun c => g.data c.2 c.1 = 2)

/-- Padded cells visited by the third pass whose raw cell is kept by the greedy
selection, in the order of the visit. -/
def emittedCells (cands : List (Int × Int)) (r W H : Nat) : List (Int × Int) :=
  (scanCells r W H).filter (fun c => rawOf r c ∈ keep r cands [])

/-- The content of `valid_idxs` after the third pass, in closed form. -/
def validIdxs (cands : List (Int × Int)) (r W H : Nat) : List Nat :=
  (emittedCells cands r W H).map (fun c => indexAfter cands 0 (rawOf r c) 0)

/-- Index read from the index map `ix` for the padded cell `c` (line 142). -/
def cellIndex (ix : Mat Nat) (r : Nat) (c : Int × Int) : Nat :=
  ix.data (c.2 - (r : Int)) (c.1 - (r : Int))

/-- The pair `(_keypoints, valid_idxs)` after the indices `idxs` have been pushed
in order (lines 143-146). -/
def pushAll {F : Type} (fl : FloatOps F) (kpts_raw : List (Int × Int)) (wr hr : F)
    (acc : List (KeyPoint F) × List Nat) (idxs : List Nat) : List (KeyPoint F) × List Nat :=
  (acc.1 ++ idxs.map (fun i => emit fl wr hr (kpts_raw.getD i (0, 0))), acc.2 ++ idxs)

/-- Order of the visit of the third pass: `u` first, then `v` (column-major). -/
def scanLt (a b : Int × Int) : Prop := a.1 < b.1 ∨ (a.1 = b.1 ∧ a.2 < b.2)

instance (a b : Int × Int) : Decidable (scanLt a b) := by
  unfold scanLt; infer_instance

/-- Position by position, key point `k` and descriptor row `k` are those of the
candidate whose index is `idxs[k]`. -/
def Emits {F D : Type} (fl : FloatOps F) (wr hr : F) (cands : List (Int × Int))
    (descs : List D) (idxs : List Nat) (kps : List (KeyPoint F)) (ds : List D) : Prop :=
  kps.length = idxs.length ∧ ds.length = idxs.length ∧
    ∀ k i : Nat, idxs[k]? = some i →
      ∃ p d, cands[i]? = some p ∧ descs[i]? = some d ∧
        kps[k]? = some (emit fl wr hr p) ∧ ds[k]? = some d

/-- Cells `a` and `b` are farther apart than `d` in both axes. -/
def farApart (d : Nat) (a b : Int × Int) : Prop :=
  ((d : Int) < a.1 - b.1 ∨ (d : Int) < b.1 - a.1) ∧ ((d : Int) < a.2 - b.2 ∨ (d : Int) < b.2 - a.2)

instance (d : Nat) (a b : Int × Int) : Decidable (farApart d a b) := by
  unfold farApart; infer_instance

/-- Naive greedy pairwise selection, in the words of the specification: go through
the candidates in input order and keep a candidate iff no previously kept candidate
lies within `r` of it in both axes (the same cell included). -/
def naivePairwiseSelect (r : Nat) (cands : List (Int × Int)) : List (Int × Int) :=
  cands.foldl
    (fun kept c =>
      if kept.any (fun k => decide (|k.1 - c.1| ≤ (r : Int) ∧ |k.2 - c.2| ≤ (r : Int)))
      then kept else kept ++ [c])
    []

/-! ## Lemmas on matrices and ranges -/

theorem mem_intRange (lo hi x : Int) : x ∈ intRange lo hi ↔ lo ≤ x ∧ x < hi := by
  unfold intRange
  simp only [List.mem_map, List.mem_range]
  constructor
  · rintro ⟨a, ha, rfl⟩
    have h1 := Int.lt_toNat.mp ha
    omega
  · intro h
    have h1 : ((x - lo).toNat : Int) = x - lo := Int.toNat_of_nonneg (by omega)
    refine ⟨(x - lo).toNat, ?_, by omega⟩
    apply Int.lt_toNat.mpr
    omega

theorem atWrite_of_inb {α : Type} (m : Mat α) (row col : Int) (x : α)
    (h : 0 ≤ row ∧ row < m.rows ∧ 0 ≤ col ∧ col < m.cols) :
    m.atWrite row col x =
      some ⟨m.rows, m.cols, fun i j => if i = row ∧ j = col then x else m.data i j⟩ := by
  unfold Mat.atWrite; rw [if_pos h]

theorem atRead_of_inb {α : Type} (m : Mat α) (row col : Int)
    (h : 0 ≤ row ∧ row < m.rows ∧ 0 ≤ col ∧ col < m.cols) :
    m.atRead row col = some (m.data row col) := by
  unfold Mat.atRead; rw [if_pos h]

/-! ## First pass -/

theorem firstPass_eq (l : List (Int × Int)) : ∀ (i : Nat) (g ix : Mat Nat),
    (∀ p ∈ l, 0 ≤ p.2 ∧ p.2 < (g.rows : Int) ∧ 0 ≤ p.1 ∧ p.1 < (g.cols : Int)) →
    ix.rows = g.rows → ix.cols = g.cols →
    firstPass l i g ix = some
      (⟨g.rows, g.cols, fun a b => if (b, a) ∈ l then 1 else g.data a b⟩,
       ⟨ix.rows, ix.cols, fun a b => indexAfter l i (b, a) (ix.data a b)⟩) := by
  induction l with
  | nil => intro i g ix _ _ _; simp [firstPass, indexAfter]
  | cons p rest ih =>
    intro i g ix hb hr hc
    obtain ⟨u, v⟩ := p
    have hp := hb (u, v) (List.mem_cons_self _ _)
    simp only at hp
    have hp2 : 0 ≤ v ∧ v < (ix.rows : Int) ∧ 0 ≤ u ∧ u < (ix.cols : Int) := by
      rw [hr, hc]; exact hp
    simp only [firstPass, atWrite_of_inb g v u 1 hp, atWrite_of_inb ix v u _ hp2, Option.bind]
    rw [ih]
    · simp only [Option.some.injEq, Prod.mk.injEq, Mat.mk.injEq, true_and]
      constructor
      · funext a b
        by_cases h : a = v ∧ b = u
        · obtain ⟨rfl, rfl⟩ := h; simp
        · have : ¬ ((b, a) = (u, v)) := by
            intro he; simp only [Prod.mk.injEq] at he; exact h ⟨he.2, he.1⟩
          simp [h, this]
      · funext a b
        by_cases h : a = v ∧ b = u
        · obtain ⟨rfl, rfl⟩ := h; simp [indexAfter]
        · have : ¬ ((u, v) = (b, a)) := by
            intro he; simp only [Prod.mk.injEq] at he; exact h ⟨he.2.symm, he.1.symm⟩
          simp [indexAfter, h, this]
    · intro q hq; exact hb q (List.mem_cons_of_mem _ hq)
    · exact hr
    · exact hc

/-! ## Second pass -/

theorem clearInner_eq (v u j : Int) (ks : List Int) : ∀ g : Mat Nat,
    (∀ k ∈ ks, ¬ (j = 0 ∧ k = 0) →
      0 ≤ v + j ∧ v + j < (g.rows : Int) ∧ 0 ≤ u + k ∧ u + k < (g.cols : Int)) →
    clearInner v u j ks g = some ⟨g.rows, g.cols, fun a b =>
      if a = v + j ∧ (b - u) ∈ ks ∧ ¬ (j = 0 ∧ b - u = 0) then 0 else g.data a b⟩ := by
  induction ks with
  | nil => intro g _; simp [clearInner]
  | cons k ks ih =>
    intro g hb
    have hrest : ∀ k' ∈ ks, ¬ (j = 0 ∧ k' = 0) →
        0 ≤ v + j ∧ v + j < (g.rows : Int) ∧ 0 ≤ u + k' ∧ u + k' < (g.cols : Int) :=
      fun k' hk' => hb k' (List.mem_cons_of_mem _ hk')
    by_cases h0 : j = 0 ∧ k = 0
    · simp only [clearInner, if_pos h0]
      rw [ih g hrest]
      simp only [Option.some.injEq, Mat.mk.injEq, true_and]
      funext a b
      by_cases hc : a = v + j ∧ (b - u) ∈ ks ∧ ¬ (j = 0 ∧ b - u = 0)
      · rw [if_pos hc, if_pos ⟨hc.1, List.mem_cons_of_mem _ hc.2.1, hc.2.2⟩]
      · rw [if_neg hc, if_neg]
        rintro ⟨h1, h2, h3⟩
        rcases List.mem_cons.mp h2 with h2 | h2
        · exact h3 ⟨h0.1, by omega⟩
        · exact hc ⟨h1, h2, h3⟩
    · have hin := hb k (List.mem_cons_self _ _) h0
      simp only [clearInner, if_neg h0, atWrite_of_inb g _ _ 0 hin, Option.bind]
      rw [ih]
      · simp only [Option.some.injEq, Mat.mk.injEq, true_and]
        funext a b
        by_cases hc : a = v + j ∧ (b - u) ∈ ks ∧ ¬ (j = 0 ∧ b - u = 0)
        · rw [if_pos hc, if_pos ⟨hc.1, List.mem_cons_of_mem _ hc.2.1, hc.2.2⟩]
        · rw [if_neg hc]
          by_cases hk : a = v + j ∧ b = u + k
          · rw [if_pos hk, if_pos]
            refine ⟨hk.1, ?_, ?_⟩
            · have : b - u = k := by omega
              rw [this]; exact List.mem_cons_self _ _
            · intro hz; exact h0 ⟨hz.1, by omega⟩
          · rw [if_neg hk, if_neg]
            rintro ⟨h1, h2, h3⟩
            rcases List.mem_cons.mp h2 with h2 | h2
            · exact hk ⟨h1, by omega⟩
            · exact hc ⟨h1, h2, h3⟩
      · exact hrest

theorem clearOuter_eq (v u : Int) (r : Nat) (js : List Int) : ∀ g : Mat Nat,
    (∀ j ∈ js, ∀ k : Int, -(r : Int) ≤ k → k ≤ (r : Int) → ¬ (j = 0 ∧ k = 0) →
      0 ≤ v + j ∧ v + j < (g.rows : Int) ∧ 0 ≤ u + k ∧ u + k < (g.cols : Int)) →
    clearOuter v u r js g = some ⟨g.rows, g.cols, fun a b =>
      if (a - v) ∈ js ∧ (-(r : Int) ≤ b - u ∧ b - u ≤ (r : Int)) ∧ ¬ (a - v = 0 ∧ b - u = 0)
      then 0 else g.data a b⟩ := by
  induction js with
  | nil => intro g _; simp [clearOuter]
  | cons j js ih =>
    intro g hb
    have hin : ∀ k ∈ intRange (-(r : Int)) ((r : Int) + 1), ¬ (j = 0 ∧ k = 0) →
        0 ≤ v + j ∧ v + j < (g.rows : Int) ∧ 0 ≤ u + k ∧ u + k < (g.cols : Int) := by
      intro k hk hz
      rw [mem_intRange] at hk
      exact hb j (List.mem_cons_self _ _) k hk.1 (by omega) hz
    simp only [clearOuter, clearInner_eq v u j _ g hin, Option.bind]
    rw [ih]
    · simp only [Option.some.injEq, Mat.mk.injEq, true_and]
      funext a b
      by_cases hc : (a - v) ∈ js ∧ (-(r : Int) ≤ b - u ∧ b - u ≤ (r : Int)) ∧
          ¬ (a - v = 0 ∧ b - u = 0)
      · rw [if_pos hc, if_pos ⟨List.mem_cons_of_mem _ hc.1, hc.2.1, hc.2.2⟩]
      · rw [if_neg hc]
        by_cases hk : a = v + j ∧ (b - u) ∈ intRange (-(r : Int)) ((r : Int) + 1) ∧
            ¬ (j = 0 ∧ b - u = 0)
        · rw [if_pos hk, if_pos]
          obtain ⟨h1, h2, h3⟩ := hk
          rw [mem_intRange] at h2
          refine ⟨?_, ⟨h2.1, by omega⟩, ?_⟩
          · have : a - v = j := by omega
            rw [this]; exact List.mem_cons_self _ _
          · intro hz; exact h3 ⟨by omega, hz.2⟩
        · rw [if_neg hk, if_neg]
          rintro ⟨h1, h2, h3⟩
          rcases List.mem_cons.mp h1 with h1 | h1
          · apply hk
            refine ⟨by omega, ?_, ?_⟩
            · rw [mem_intRange]; exact ⟨h2.1, by omega⟩
            · intro hz; exact h3 ⟨by omega, hz.2⟩
          · exact hc ⟨h1, h2, h3⟩
    · intro j' hj'; exact hb j' (List.mem_cons_of_mem _ hj')

theorem near_refl (r : Nat) (a : Int × Int) : near r a a := by
  unfold near; omega

theorem near_symm {r : Nat} {a b : Int × Int} (h : near r a b) : near r b a := by
  unfold near at *; omega

theorem cellState_eq_one {r : Nat} {kept l : List (Int × Int)} {row col : Int}
    (h : cellState r kept l row col = 1) :
    (col - (r : Int), row - (r : Int)) ∉ kept ∧ (col - (r : Int), row - (r : Int)) ∈ l ∧
      ∀ k ∈ kept, ¬ near r k (col - (r : Int), row - (r : Int)) := by
  unfold cellState at h
  split_ifs at h with h1 h2
  all_goals first | omega | exact ⟨h1, h2.1, h2.2⟩

theorem secondPass_eq (r W H : Nat) (l : List (Int × Int)) :
    ∀ (kept : List (Int × Int)) (g : Mat Nat),
    InBounds W H l → g.rows = H + r + r → g.cols = W + r + r →
    g.data = cellState r kept l →
    secondPass r l g = some ⟨g.rows, g.cols, cellState r (keep r l kept) []⟩ := by
  induction l with
  | nil =>
    intro kept g _ _ _ hd
    obtain ⟨rows, cols, data⟩ := g
    simp only at hd
    subst hd
    simp [secondPass, keep]
  | cons c rest ih =>
    intro kept g hb hr hc hd
    obtain ⟨u0, v0⟩ := c
    obtain ⟨rows, cols, data⟩ := g
    simp only at hr hc hd
    subst hd
    have hp := hb (u0, v0) (List.mem_cons_self _ _)
    simp only at hp
    have hbrest : InBounds W H rest := fun q hq => hb q (List.mem_cons_of_mem _ hq)
    have hin : 0 ≤ v0 + (r : Int) ∧ v0 + (r : Int) < (rows : Int) ∧
        0 ≤ u0 + (r : Int) ∧ u0 + (r : Int) < (cols : Int) := by
      rw [hr, hc]; push_cast; omega
    have hcell : (u0 + (r : Int) - (r : Int), v0 + (r : Int) - (r : Int)) = (u0, v0) := by
      simp
    have hread := atRead_of_inb ⟨rows, cols, cellState r kept ((u0, v0) :: rest)⟩ _ _ hin
    simp only at hread
    simp only [secondPass, hread, Option.some_bind]
    by_cases hone : cellState r kept ((u0, v0) :: rest) (v0 + (r : Int)) (u0 + (r : Int)) = 1
    · obtain ⟨hnk, -, hno⟩ := cellState_eq_one hone
      rw [hcell] at hnk hno
      have hk : ¬ ∃ k ∈ kept, near r k (u0, v0) := by
        rintro ⟨k, hk1, hk2⟩; exact hno k hk1 hk2
      rw [if_neg (not_not.mpr hone)]
      rw [clearOuter_eq]
      · simp only [Option.some_bind]
        rw [atWrite_of_inb _ _ _ 2 hin]
        simp only [Option.some_bind]
        rw [ih (kept ++ [(u0, v0)])]
        · simp only [keep, if_neg hk]
        · exact hbrest
        · exact hr
        · exact hc
        · funext row col
          simp only
          by_cases h1 : row = v0 + (r : Int) ∧ col = u0 + (r : Int)
          · rw [if_pos h1]
            have hcc : (col - (r : Int), row - (r : Int)) = (u0, v0) := by
              obtain ⟨rfl, rfl⟩ := h1; exact hcell
            unfold cellState
            rw [hcc, if_pos (by simp)]
          · rw [if_neg h1]
            have hne : (col - (r : Int), row - (r : Int)) ≠ (u0, v0) := by
              intro he
              simp only [Prod.mk.injEq] at he
              exact h1 ⟨by omega, by omega⟩
            have hnot : (col - (r : Int), row - (r : Int)) ∈ kept ++ [(u0, v0)] ↔
                (col - (r : Int), row - (r : Int)) ∈ kept := by
              simp [hne]
            by_cases h2 : near r (u0, v0) (col - (r : Int), row - (r : Int))
            · have h2a := h2
              unfold near at h2a
              simp only at h2a
              rw [if_pos]
              · unfold cellState
                rw [if_neg, if_neg]
                · rintro ⟨-, h4⟩
                  exact h4 (u0, v0) (by simp) h2
                · rw [hnot]
                  intro hm
                  exact hno _ hm (near_symm h2)
              · refine ⟨?_, ⟨by omega, by omega⟩, ?_⟩
                · rw [mem_intRange]; omega
                · intro hz; exact h1 ⟨by omega, by omega⟩
            · rw [if_neg]
              · unfold cellState
                by_cases hm : (col - (r : Int), row - (r : Int)) ∈ kept
                · rw [if_pos hm, if_pos (hnot.mpr hm)]
                · rw [if_neg hm, if_neg (fun hh => hm (hnot.mp hh))]
                  by_cases h3 : (col - (r : Int), row - (r : Int)) ∈ (u0, v0) :: rest ∧
                      ∀ k ∈ kept, ¬ near r k (col - (r : Int), row - (r : Int))
                  · rw [if_pos h3, if_pos]
                    refine ⟨?_, ?_⟩
                    · rcases List.mem_cons.mp h3.1 with h5 | h5
                      · exact absurd h5 hne
                      · exact h5
                    · intro k hk5
                      rcases List.mem_append.mp hk5 with h6 | h6
                      · exact h3.2 k h6
                      · simp only [List.mem_singleton] at h6
                        rw [h6]; exact h2
                  · rw [if_neg h3, if_neg]
                    rintro ⟨h5, h6⟩
                    exact h3 ⟨List.mem_cons_of_mem _ h5,
                      fun k hk5 => h6 k (List.mem_append_left _ hk5)⟩
              · rintro ⟨h5, h6, -⟩
                rw [mem_intRange] at h5
                apply h2
                unfold near
                simp only
                omega
      · intro j hj k hk1 hk2 _
        rw [mem_intRange] at hj
        simp only
        rw [hr, hc]; push_cast; omega
    · rw [if_pos hone]
      have hk : ∃ k ∈ kept, near r k (u0, v0) := by
        unfold cellState at hone
        rw [hcell] at hone
        by_contra hno
        push_neg at hno
        by_cases hm : (u0, v0) ∈ kept
        · exact hno _ hm (near_refl r _)
        · rw [if_neg hm, if_pos ⟨List.mem_cons_self _ _, hno⟩] at hone
          exact hone rfl
      rw [ih kept _ hbrest hr hc]
      · simp only [keep, if_pos hk]
      · funext row col
        simp only
        unfold cellState
        by_cases hm : (col - (r : Int), row - (r : Int)) ∈ kept
        · rw [if_pos hm, if_pos hm]
        · rw [if_neg hm, if_neg hm]
          by_cases h3 : (col - (r : Int), row - (r : Int)) ∈ rest ∧
              ∀ k ∈ kept, ¬ near r k (col - (r : Int), row - (r : Int))
          · rw [if_pos h3, if_pos ⟨List.mem_cons_of_mem _ h3.1, h3.2⟩]
          · rw [if_neg h3, if_neg]
            rintro ⟨h5, h6⟩
            rcases List.mem_cons.mp h5 with h7 | h7
            · obtain ⟨k, hk1, hk2⟩ := hk
              rw [h7] at h6
              exact h6 k hk1 hk2
            · exact h3 ⟨h7, h6⟩

theorem secondPass_prefix_eq (r W H : Nat) (post l : List (Int × Int)) :
    ∀ (kept : List (Int × Int)) (g : Mat Nat),
    InBounds W H l → g.rows = H + r + r → g.cols = W + r + r →
    g.data = cellState r kept (l ++ post) →
    secondPass r l g = some ⟨g.rows, g.cols, cellState r (keep r l kept) post⟩ := by
  induction l with
  | nil =>
    intro kept g _ _ _ hd
    obtain ⟨rows, cols, data⟩ := g
    simp only at hd
    subst hd
    simp [secondPass, keep]
  | cons c rest ih =>
    intro kept g hb hr hc hd
    obtain ⟨u0, v0⟩ := c
    obtain ⟨rows, cols, data⟩ := g
    simp only at hr hc hd
    rw [List.cons_append] at hd
    subst hd
    have hp := hb (u0, v0) (List.mem_cons_self _ _)
    simp only at hp
    have hbrest : InBounds W H rest := fun q hq => hb q (List.mem_cons_of_mem _ hq)
    have hin : 0 ≤ v0 + (r : Int) ∧ v0 + (r : Int) < (rows : Int) ∧
        0 ≤ u0 + (r : Int) ∧ u0 + (r : Int) < (cols : Int) := by
      rw [hr, hc]; push_cast; omega
    have hcell : (u0 + (r : Int) - (r : Int), v0 + (r : Int) - (r : Int)) = (u0, v0) := by
      simp
    have hread := atRead_of_inb ⟨rows, cols, cellState r kept ((u0, v0) :: (rest ++ post))⟩ _ _ hin
    simp only at hread
    simp only [secondPass, hread, Option.some_bind]
    by_cases hone : cellState r kept ((u0, v0) :: (rest ++ post)) (v0 + (r : Int)) (u0 + (r : Int)) = 1
    · obtain ⟨hnk, -, hno⟩ := cellState_eq_one hone
      rw [hcell] at hnk hno
      have hk : ¬ ∃ k ∈ kept, near r k (u0, v0) := by
        rintro ⟨k, hk1, hk2⟩; exact hno k hk1 hk2
      rw [if_neg (not_not.mpr hone)]
      rw [clearOuter_eq]
      · simp only [Option.some_bind]
        rw [atWrite_of_inb _ _ _ 2 hin]
        simp only [Option.some_bind]
        rw [ih (kept ++ [(u0, v0)])]
        · simp only [keep, if_neg hk]
        · exact hbrest
        · exact hr
        · exact hc
        · funext row col
          simp only
          by_cases h1 : row = v0 + (r : Int) ∧ col = u0 + (r : Int)
          · rw [if_pos h1]
            have hcc : (col - (r : Int), row - (r : Int)) = (u0, v0) := by
              obtain ⟨rfl, rfl⟩ := h1; exact hcell
            unfold cellState
            rw [hcc, if_pos (by simp)]
          · rw [if_neg h1]
            have hne : (col - (r : Int), row - (r : Int)) ≠ (u0, v0) := by
              intro he
              simp only [Prod.mk.injEq] at he
              exact h1 ⟨by omega, by omega⟩
            have hnot : (col - (r : Int), row - (r : Int)) ∈ kept ++ [(u0, v0)] ↔
                (col - (r : Int), row - (r : Int)) ∈ kept := by
              simp [hne]
            by_cases h2 : near r (u0, v0) (col - (r : Int), row - (r : Int))
            · have h2a := h2
              unfold near at h2a
              simp only at h2a
              rw [if_pos]
              · unfold cellState
                rw [if_neg, if_neg]
                · rintro ⟨-, h4⟩
                  exact h4 (u0, v0) (by simp) h2
                · rw [hnot]
                  intro hm
                  exact hno _ hm (near_symm h2)
              · refine ⟨?_, ⟨by omega, by omega⟩, ?_⟩
                · rw [mem_intRange]; omega
                · intro hz; exact h1 ⟨by omega, by omega⟩
            · rw [if_neg]
              · unfold cellState
                by_cases hm : (col - (r : Int), row - (r : Int)) ∈ kept
                · rw [if_pos hm, if_pos (hnot.mpr hm)]
                · rw [if_neg hm, if_neg (fun hh => hm (hnot.mp hh))]
                  by_cases h3 : (col - (r : Int), row - (r : Int)) ∈ (u0, v0) :: (rest ++ post) ∧
                      ∀ k ∈ kept, ¬ near r k (col - (r : Int), row - (r : Int))
                  · rw [if_pos h3, if_pos]
                    refine ⟨?_, ?_⟩
                    · rcases List.mem_cons.mp h3.1 with h5 | h5
                      · exact absurd h5 hne
                      · exact h5
                    · intro k hk5
                      rcases List.mem_append.mp hk5 with h6 | h6
                      · exact h3.2 k h6
                      · simp only [List.mem_singleton] at h6
                        rw [h6]; exact h2
                  · rw [if_neg h3, if_neg]
                    rintro ⟨h5, h6⟩
                    exact h3 ⟨List.mem_cons_of_mem _ h5,
                      fun k hk5 => h6 k (List.mem_append_left _ hk5)⟩
              · rintro ⟨h5, h6, -⟩
                rw [mem_intRange] at h5
                apply h2
                unfold near
                simp only
                omega
      · intro j hj k hk1 hk2 _
        rw [mem_intRange] at hj
        simp only
        rw [hr, hc]; push_cast; omega
    · rw [if_pos hone]
      have hk : ∃ k ∈ kept, near r k (u0, v0) := by
        unfold cellState at hone
        rw [hcell] at hone
        by_contra hno
        push_neg at hno
        by_cases hm : (u0, v0) ∈ kept
        · exact hno _ hm (near_refl r _)
        · rw [if_neg hm, if_pos ⟨List.mem_cons_self _ _, hno⟩] at hone
          exact hone rfl
      rw [ih kept _ hbrest hr hc]
      · simp only [keep, if_pos hk]
      · funext row col
        simp only
        unfold cellState
        by_cases hm : (col - (r : Int), row - (r : Int)) ∈ kept
        · rw [if_pos hm, if_pos hm]
        · rw [if_neg hm, if_neg hm]
          by_cases h3 : (col - (r : Int), row - (r : Int)) ∈ rest ++ post ∧
              ∀ k ∈ kept, ¬ near r k (col - (r : Int), row - (r : Int))
          · rw [if_pos h3, if_pos ⟨List.mem_cons_of_mem _ h3.1, h3.2⟩]
          · rw [if_neg h3, if_neg]
            rintro ⟨h5, h6⟩
            rcases List.mem_cons.mp h5 with h7 | h7
            · obtain ⟨k, hk1, hk2⟩ := hk
              rw [h7] at h6
              exact h6 k hk1 hk2
            · exact h3 ⟨h7, h6⟩

theorem suppress_eq (cands : List (Int × Int)) (r W H : Nat) (hb : InBounds W H cands) :
    suppress cands r W H = some
      (⟨H + r + r, W + r + r, cellState r (keep r cands []) []⟩,
       ⟨H, W, fun a b => indexAfter cands 0 (b, a) 0⟩) := by
  have h1 := firstPass_eq cands 0 (Mat.zeros W H) (Mat.zeros W H)
    (fun p hp => by
      have := hb p hp
      simp only [Mat.zeros]
      omega) rfl rfl
  unfold suppress
  rw [h1]
  simp only [Option.some_bind]
  rw [secondPass_eq r W H cands [] _ hb rfl rfl]
  · simp [copyMakeBorder, Mat.zeros]
  · funext row col
    simp only [copyMakeBorder, Mat.zeros, cellState]
    rw [if_neg (List.not_mem_nil _)]
    by_cases hm : (col - (r : Int), row - (r : Int)) ∈ cands
    · have := hb _ hm
      simp only at this
      rw [if_pos ⟨by omega, by omega, by omega, by omega⟩, if_pos hm, if_pos]
      exact ⟨hm, fun k hk => absurd hk (List.not_mem_nil _)⟩
    · have hR : (if (col - (r : Int), row - (r : Int)) ∈ cands ∧
          ∀ k ∈ ([] : List (Int × Int)), ¬ near r k (col - (r : Int), row - (r : Int))
          then 1 else 0) = 0 := if_neg (fun hh => hm hh.1)
      rw [hR]
      by_cases hr : 0 ≤ row - (r : Int) ∧ row - (r : Int) < (H : Int) ∧
          0 ≤ col - (r : Int) ∧ col - (r : Int) < (W : Int)
      · rw [if_pos hr, if_neg hm]
      · rw [if_neg hr]

/-! ## Third pass -/

theorem thirdBody_eq {F : Type} (fl : FloatOps F) (kpts_raw : List (Int × Int))
    (g ix : Mat Nat) (r : Nat) (wr hr : F) (u v : Int) (acc : List (KeyPoint F) × List Nat)
    (hin : 0 ≤ v ∧ v < (g.rows : Int) ∧ 0 ≤ u ∧ u < (g.cols : Int))
    (h2 : g.data v u = 2 →
      (0 ≤ v - (r : Int) ∧ v - (r : Int) < (ix.rows : Int) ∧
        0 ≤ u - (r : Int) ∧ u - (r : Int) < (ix.cols : Int)) ∧
      ix.data (v - (r : Int)) (u - (r : Int)) < kpts_raw.length) :
    thirdBody fl kpts_raw g ix r wr hr u v acc = some
      (if g.data v u = 2 then
        (acc.1 ++ [emit fl wr hr (kpts_raw.getD (ix.data (v - (r : Int)) (u - (r : Int))) (0, 0))],
         acc.2 ++ [ix.data (v - (r : Int)) (u - (r : Int))])
       else acc) := by
  unfold thirdBody
  rw [atRead_of_inb g v u hin]
  simp only [Option.some_bind]
  by_cases h : g.data v u = 2
  · obtain ⟨hi, hlt⟩ := h2 h
    have hget : kpts_raw[ix.data (v - (r : Int)) (u - (r : Int))]? =
        some (kpts_raw.getD (ix.data (v - (r : Int)) (u - (r : Int))) (0, 0)) := by
      simp [List.getD_eq_getElem?_getD, List.getElem?_eq_getElem hlt]
    rw [if_pos h, if_pos h, atRead_of_inb ix _ _ hi]
    simp only [Option.some_bind]
    rw [hget]
    simp only [Option.some_bind, emit]
  · rw [if_neg h, if_neg h]

theorem pushAll_append {F : Type} (fl : FloatOps F) (kpts_raw : List (Int × Int)) (wr hr : F)
    (acc : List (KeyPoint F) × List Nat) (l1 l2 : List Nat) :
    pushAll fl kpts_raw wr hr (pushAll fl kpts_raw wr hr acc l1) l2 =
      pushAll fl kpts_raw wr hr acc (l1 ++ l2) := by
  simp [pushAll]

theorem thirdInner_eq {F : Type} (fl : FloatOps F) (kpts_raw : List (Int × Int))
    (g ix : Mat Nat) (r : Nat) (wr hr : F) (u : Int) (vs : List Int) :
    ∀ acc : List (KeyPoint F) × List Nat,
    (∀ v ∈ vs, (0 ≤ v ∧ v < (g.rows : Int) ∧ 0 ≤ u ∧ u < (g.cols : Int)) ∧
      (g.data v u = 2 →
        (0 ≤ v - (r : Int) ∧ v - (r : Int) < (ix.rows : Int) ∧
          0 ≤ u - (r : Int) ∧ u - (r : Int) < (ix.cols : Int)) ∧
        ix.data (v - (r : Int)) (u - (r : Int)) < kpts_raw.length)) →
    thirdInner fl kpts_raw g ix r wr hr u vs acc = some
      (pushAll fl kpts_raw wr hr acc
        (((vs.map (fun v => (u, v))).filter (fun c => g.data c.2 c.1 = 2)).map
          (cellIndex ix r))) := by
  induction vs with
  | nil => intro acc _; simp [thirdInner, pushAll]
  | cons v vs ih =>
    intro acc h
    obtain ⟨hin, h2⟩ := h v (List.mem_cons_self _ _)
    unfold thirdInner
    rw [thirdBody_eq fl kpts_raw g ix r wr hr u v acc hin h2]
    simp only [Option.some_bind]
    rw [ih _ (fun v' hv' => h v' (List.mem_cons_of_mem _ hv'))]
    by_cases hv : g.data v u = 2
    · simp [hv, pushAll, cellIndex, List.filter_cons]
    · simp [hv, pushAll, cellIndex, List.filter_cons]

theorem thirdOuter_eq {F : Type} (fl : FloatOps F) (kpts_raw : List (Int × Int))
    (g ix : Mat Nat) (r H : Nat) (wr hr : F) (us : List Int) :
    ∀ acc : List (KeyPoint F) × List Nat,
    (∀ u ∈ us, ∀ v ∈ intRange (r : Int) ((H : Int) - (r : Int)),
      (0 ≤ v ∧ v < (g.rows : Int) ∧ 0 ≤ u ∧ u < (g.cols : Int)) ∧
      (g.data v u = 2 →
        (0 ≤ v - (r : Int) ∧ v - (r : Int) < (ix.rows : Int) ∧
          0 ≤ u - (r : Int) ∧ u - (r : Int) < (ix.cols : Int)) ∧
        ix.data (v - (r : Int)) (u - (r : Int)) < kpts_raw.length)) →
    thirdOuter fl kpts_raw g ix r H wr hr us acc = some
      (pushAll fl kpts_raw wr hr acc
        (((us ×ˢ intRange (r : Int) ((H : Int) - (r : Int))).filter
          (fun c => g.data c.2 c.1 = 2)).map (cellIndex ix r))) := by
  induction us with
  | nil => intro acc _; simp [thirdOuter, pushAll]
  | cons u us ih =>
    intro acc h
    unfold thirdOuter
    rw [thirdInner_eq fl kpts_raw g ix r wr hr u _ acc (h u (List.mem_cons_self _ _))]
    simp only [Option.some_bind]
    rw [ih _ (fun u' hu' => h u' (List.mem_cons_of_mem _ hu'))]
    rw [pushAll_append, List.product_cons, List.filter_append, List.map_append]

theorem copyDescriptors_eq {D : Type} (desc_raw : List D) (idxs : List Nat)
    (h : ∀ i ∈ idxs, i < desc_raw.length) :
    copyDescriptors desc_raw idxs = some (idxs.filterMap (fun i => desc_raw[i]?)) := by
  induction idxs with
  | nil => simp [copyDescriptors]
  | cons i rest ih =>
    have hi := h i (List.mem_cons_self _ _)
    unfold copyDescriptors
    rw [ih (fun j hj => h j (List.mem_cons_of_mem _ hj))]
    simp [List.getElem?_eq_getElem hi, List.filterMap_cons]

/-! ## The index map and the greedy selection -/

theorem indexAfter_not_mem (l : List (Int × Int)) : ∀ (i : Nat) (c : Int × Int) (d : Nat),
    c ∉ l → indexAfter l i c d = d := by
  induction l with
  | nil => intro i c d _; rfl
  | cons p rest ih =>
    intro i c d h
    have h1 : ¬ p = c := fun he => h (he ▸ List.mem_cons_self _ _)
    have h2 : c ∉ rest := fun hm => h (List.mem_cons_of_mem _ hm)
    simp only [indexAfter, if_neg h1]
    exact ih _ c d h2

theorem indexAfter_mem (l : List (Int × Int)) : ∀ (i : Nat) (c : Int × Int) (d : Nat),
    c ∈ l → ∃ k, k < l.length ∧ l[k]? = some c ∧ (∀ k', k < k' → l[k']? ≠ some c) ∧
      indexAfter l i c d = (i + k) % 65536 := by
  induction l with
  | nil => intro i c d h; exact absurd h (List.not_mem_nil _)
  | cons p rest ih =>
    intro i c d h
    by_cases hr : c ∈ rest
    · obtain ⟨k, hk1, hk2, hk3, hk4⟩ := ih (i + 1) c (if p = c then i % 65536 else d) hr
      refine ⟨k + 1, by simp only [List.length_cons]; omega, by simpa using hk2, ?_, ?_⟩
      · intro k' hk'
        obtain ⟨m, rfl⟩ : ∃ m, k' = m + 1 := ⟨k' - 1, by omega⟩
        simpa using hk3 m (by omega)
      · simp only [indexAfter]
        rw [hk4]
        congr 1
        omega
    · have hp : p = c := by
        rcases List.mem_cons.mp h with h1 | h1
        · exact h1.symm
        · exact absurd h1 hr
      refine ⟨0, by simp, by simp [hp], ?_, ?_⟩
      · intro k' hk'
        obtain ⟨m, rfl⟩ : ∃ m, k' = m + 1 := ⟨k' - 1, by omega⟩
        intro hget
        apply hr
        rw [List.getElem?_cons_succ] at hget
        exact List.mem_iff_getElem?.mpr ⟨m, hget⟩
      · simp only [indexAfter, if_pos hp]
        rw [indexAfter_not_mem rest _ c _ hr]
        rfl

theorem indexAfter_lt (l : List (Int × Int)) (c : Int × Int) (d : Nat) (h : c ∈ l) :
    indexAfter l 0 c d < l.length := by
  obtain ⟨k, hk1, -, -, hk4⟩ := indexAfter_mem l 0 c d h
  rw [hk4]
  have := Nat.mod_le (0 + k) 65536
  omega

theorem keep_subset (r : Nat) (l : List (Int × Int)) : ∀ kept : List (Int × Int),
    ∀ c ∈ keep r l kept, c ∈ kept ∨ c ∈ l := by
  induction l with
  | nil => intro kept c h; exact Or.inl h
  | cons p rest ih =>
    intro kept c h
    unfold keep at h
    split_ifs at h with hk
    · rcases ih kept c h with h1 | h1
      · exact Or.inl h1
      · exact Or.inr (List.mem_cons_of_mem _ h1)
    · rcases ih _ c h with h1 | h1
      · rcases List.mem_append.mp h1 with h2 | h2
        · exact Or.inl h2
        · simp only [List.mem_singleton] at h2
          exact Or.inr (h2 ▸ List.mem_cons_self _ _)
      · exact Or.inr (List.mem_cons_of_mem _ h1)

theorem kept_subset_keep (r : Nat) (l : List (Int × Int)) : ∀ kept : List (Int × Int),
    ∀ c ∈ kept, c ∈ keep r l kept := by
  induction l with
  | nil => intro kept c h; exact h
  | cons p rest ih =>
    intro kept c h
    unfold keep
    split_ifs with hk
    · exact ih kept c h
    · exact ih _ c (List.mem_append_left _ h)

theorem keep_separated (r : Nat) (l : List (Int × Int)) : ∀ kept : List (Int × Int),
    (∀ a ∈ kept, ∀ b ∈ kept, near r a b → a = b) →
    ∀ a ∈ keep r l kept, ∀ b ∈ keep r l kept, near r a b → a = b := by
  induction l with
  | nil => intro kept h; exact h
  | cons p rest ih =>
    intro kept h
    unfold keep
    split_ifs with hk
    · exact ih kept h
    · apply ih
      intro a ha b hb hn
      rcases List.mem_append.mp ha with ha1 | ha1 <;>
        rcases List.mem_append.mp hb with hb1 | hb1
      · exact h a ha1 b hb1 hn
      · simp only [List.mem_singleton] at hb1
        rw [hb1] at hn
        exact absurd ⟨a, ha1, hn⟩ hk
      · simp only [List.mem_singleton] at ha1
        rw [ha1] at hn
        exact absurd ⟨b, hb1, near_symm hn⟩ hk
      · simp only [List.mem_singleton] at ha1 hb1
        rw [ha1, hb1]

theorem cellState_nil_eq_two (r : Nat) (kept : List (Int × Int)) (row col : Int) :
    cellState r kept [] row col = 2 ↔ (col - (r : Int), row - (r : Int)) ∈ kept := by
  unfold cellState
  by_cases h : (col - (r : Int), row - (r : Int)) ∈ kept
  · simp [h]
  · simp [h]

theorem validIdxs_lt (cands : List (Int × Int)) (r W H : Nat) :
    ∀ i ∈ validIdxs cands r W H, i < cands.length := by
  intro i hi
  unfold validIdxs emittedCells at hi
  obtain ⟨c, hc, rfl⟩ := List.mem_map.mp hi
  have hk := (List.mem_filter.mp hc).2
  simp only [decide_eq_true_eq] at hk
  rcases keep_subset r cands [] _ hk with h1 | h1
  · exact absurd h1 (List.not_mem_nil _)
  · exact indexAfter_lt cands _ 0 h1

/-! ## Closed form of the whole function -/

theorem hits_suppress (cands : List (Int × Int)) (r W H rows cols : Nat) :
    hits ⟨rows, cols, cellState r (keep r cands []) []⟩ r W H = emittedCells cands r W H := by
  unfold hits emittedCells
  apply List.filter_congr
  intro c _
  simp only [cellState_nil_eq_two, rawOf]

theorem thirdPass_suppress {F : Type} (fl : FloatOps F) (cands : List (Int × Int))
    (kps0 : List (KeyPoint F)) (r W H : Nat) (wr hr : F) :
    thirdPass fl cands ⟨H + r + r, W + r + r, cellState r (keep r cands []) []⟩
        ⟨H, W, fun a b => indexAfter cands 0 (b, a) 0⟩ kps0 r W H wr hr = some
      (kps0 ++ (validIdxs cands r W H).map (fun i => emit fl wr hr (cands.getD i (0, 0))),
       validIdxs cands r W H) := by
  unfold thirdPass
  rw [thirdOuter_eq]
  · simp only [pushAll, List.nil_append]
    have hsel : List.map (cellIndex ⟨H, W, fun a b => indexAfter cands 0 (b, a) 0⟩ r)
        (List.filter (fun c => decide (cellState r (keep r cands []) [] c.2 c.1 = 2))
          (intRange (r : Int) ((W : Int) - (r : Int)) ×ˢ
            intRange (r : Int) ((H : Int) - (r : Int)))) = validIdxs cands r W H := by
      unfold validIdxs emittedCells scanCells
      congr 1
      apply List.filter_congr
      intro c _
      simp only [cellState_nil_eq_two, rawOf]
    rw [hsel]
  · intro u hu v hv
    rw [mem_intRange] at hu hv
    refine ⟨by simp only; push_cast; omega, ?_⟩
    intro h2
    simp only at h2
    rw [cellState_nil_eq_two] at h2
    refine ⟨by simp only; omega, ?_⟩
    rcases keep_subset r cands [] _ h2 with h1 | h1
    · exact absurd h1 (List.not_mem_nil _)
    · exact indexAfter_lt cands _ 0 h1

theorem NonMaximalSuppression_eq {F D : Type} (fl : FloatOps F) (cands : List (Int × Int))
    (descs : List D) (kps0 : List (KeyPoint F)) (r W H : Nat) (wr hr : F)
    (hb : InBounds W H cands) (hd : cands.length ≤ descs.length) :
    NonMaximalSuppression fl cands descs kps0 r W H wr hr = some
      (kps0 ++ (validIdxs cands r W H).map (fun i => emit fl wr hr (cands.getD i (0, 0))),
       (validIdxs cands r W H).filterMap (fun i => descs[i]?)) := by
  unfold NonMaximalSuppression
  rw [suppress_eq cands r W H hb]
  simp only [Option.some_bind]
  rw [thirdPass_suppress]
  simp only [Option.some_bind]
  rw [copyDescriptors_eq descs _
    (fun i hi => lt_of_lt_of_le (validIdxs_lt cands r W H i hi) hd)]
  rfl

theorem filterMap_getElem?_length {D : Type} (descs : List D) (idxs : List Nat)
    (h : ∀ i ∈ idxs, i < descs.length) :
    (idxs.filterMap (fun i => descs[i]?)).length = idxs.length ∧
      ∀ k i : Nat, idxs[k]? = some i →
        (idxs.filterMap (fun i => descs[i]?))[k]? = descs[i]? := by
  induction idxs with
  | nil => simp
  | cons j rest ih =>
    have hj := h j (List.mem_cons_self _ _)
    obtain ⟨ih1, ih2⟩ := ih (fun i hi => h i (List.mem_cons_of_mem _ hi))
    have hcons : List.filterMap (fun i => descs[i]?) (j :: rest) =
        descs[j] :: List.filterMap (fun i => descs[i]?) rest := by
      simp [List.filterMap_cons, List.getElem?_eq_getElem hj]
    rw [hcons]
    refine ⟨by simp [ih1], ?_⟩
    intro k i hk
    cases k with
    | zero =>
      simp only [List.getElem?_cons_zero, Option.some.injEq] at hk
      subst hk
      simp [List.getElem?_eq_getElem hj]
    | succ m =>
      rw [List.getElem?_cons_succ] at hk
      rw [List.getElem?_cons_succ]
      exact ih2 m i hk

theorem emits_validIdxs {F D : Type} (fl : FloatOps F) (wr hr : F) (cands : List (Int × Int))
    (descs : List D) (r W H : Nat) (hd : cands.length ≤ descs.length) :
    Emits fl wr hr cands descs (validIdxs cands r W H)
      ((validIdxs cands r W H).map (fun i => emit fl wr hr (cands.getD i (0, 0))))
      ((validIdxs cands r W H).filterMap (fun i => descs[i]?)) := by
  have hlt := validIdxs_lt cands r W H
  obtain ⟨h1, h2⟩ := filterMap_getElem?_length descs (validIdxs cands r W H)
    (fun i hi => lt_of_lt_of_le (hlt i hi) hd)
  refine ⟨by simp, h1, ?_⟩
  intro k i hk
  have hi : i < cands.length := hlt i (List.mem_iff_getElem?.mpr ⟨k, hk⟩)
  have hi2 : i < descs.length := lt_of_lt_of_le hi hd
  refine ⟨cands[i], descs[i], List.getElem?_eq_getElem hi, List.getElem?_eq_getElem hi2, ?_, ?_⟩
  · rw [List.getElem?_map, hk]
    simp [List.getD_eq_getElem?_getD, List.getElem?_eq_getElem hi]
  · rw [h2 k i hk, List.getElem?_eq_getElem hi2]

/-! ## Order of the visit of the third pass -/

theorem intRange_pairwise (lo hi : Int) : (intRange lo hi).Pairwise (fun a b => a < b) := by
  unfold intRange
  apply List.Pairwise.map _ _ (List.pairwise_lt_range _)
  intro a b hab
  omega

theorem product_pairwise_scanLt (us vs : List Int) (hu : us.Pairwise (fun a b => a < b))
    (hv : vs.Pairwise (fun a b => a < b)) : (us ×ˢ vs).Pairwise scanLt := by
  induction us with
  | nil => simp
  | cons u us ih =>
    rw [List.product_cons, List.pairwise_append]
    rw [List.pairwise_cons] at hu
    refine ⟨?_, ih hu.2, ?_⟩
    · rw [List.pairwise_map]
      exact hv.imp (fun hab => Or.inr ⟨rfl, hab⟩)
    · intro a ha b hb
      obtain ⟨v, -, rfl⟩ := List.mem_map.mp ha
      obtain ⟨b1, b2⟩ := b
      have hb1 := (List.mem_product.mp hb).1
      exact Or.inl (hu.1 b1 hb1)

theorem scanCells_pairwise (r W H : Nat) : (scanCells r W H).Pairwise scanLt :=
  product_pairwise_scanLt _ _ (intRange_pairwise _ _) (intRange_pairwise _ _)

theorem scanLt_rawOf (r : Nat) (a b : Int × Int) : scanLt (rawOf r a) (rawOf r b) ↔ scanLt a b := by
  unfold scanLt rawOf
  simp only
  omega

theorem emittedCells_pairwise (cands : List (Int × Int)) (r W H : Nat) :
    (emittedCells cands r W H).Pairwise scanLt :=
  (scanCells_pairwise r W H).sublist (List.filter_sublist _)

theorem mem_scanCells (r W H : Nat) (c : Int × Int) :
    c ∈ scanCells r W H ↔
      (r : Int) ≤ c.1 ∧ c.1 < (W : Int) - (r : Int) ∧ (r : Int) ≤ c.2 ∧ c.2 < (H : Int) - (r : Int) := by
  obtain ⟨c1, c2⟩ := c
  unfold scanCells
  rw [List.mem_product, mem_intRange, mem_intRange]
  simp only
  tauto

theorem mem_emittedCells (cands : List (Int × Int)) (r W H : Nat) (c : Int × Int) :
    c ∈ emittedCells cands r W H ↔ c ∈ scanCells r W H ∧ rawOf r c ∈ keep r cands [] := by
  unfold emittedCells
  rw [List.mem_filter]
  simp only [decide_eq_true_eq]

theorem emitted_raw_nodup (cands : List (Int × Int)) (r W H : Nat) :
    ((emittedCells cands r W H).map (rawOf r)).Nodup := by
  have h := emittedCells_pairwise cands r W H
  unfold List.Nodup
  rw [List.pairwise_map]
  apply h.imp
  intro a b hab heq
  rw [← scanLt_rawOf r, heq] at hab
  unfold scanLt at hab
  omega

theorem validIdxs_length_le (cands : List (Int × Int)) (r W H : Nat) :
    (validIdxs cands r W H).length ≤ cands.length := by
  have h1 : (validIdxs cands r W H).length = ((emittedCells cands r W H).map (rawOf r)).length := by
    simp [validIdxs]
  rw [h1]
  apply List.Subperm.length_le
  apply List.subperm_of_subset (emitted_raw_nodup cands r W H)
  intro c hc
  obtain ⟨c0, hc0, rfl⟩ := List.mem_map.mp hc
  rcases keep_subset r cands [] _ ((mem_emittedCells cands r W H c0).mp hc0).2 with h | h
  · exact absurd h (List.not_mem_nil _)
  · exact h

/-! ## Further facts on the index map and the greedy selection -/

theorem indexAfter_getElem? (cands : List (Int × Int)) (c : Int × Int) (hc : c ∈ cands)
    (hN : cands.length ≤ 65536) :
    cands[indexAfter cands 0 c 0]? = some c ∧
      ∀ j : Nat, indexAfter cands 0 c 0 < j → cands[j]? ≠ some c := by
  obtain ⟨k, hk1, hk2, hk3, hk4⟩ := indexAfter_mem cands 0 c 0 hc
  have hk : (0 + k) % 65536 = k := by
    rw [Nat.zero_add]
    exact Nat.mod_eq_of_lt (by omega)
  rw [hk4, hk]
  exact ⟨hk2, hk3⟩

theorem near_zero (a b : Int × Int) : near 0 a b ↔ a = b := by
  obtain ⟨a1, a2⟩ := a
  obtain ⟨b1, b2⟩ := b
  unfold near
  simp only [Prod.mk.injEq]
  push_cast
  omega

theorem mem_keep_zero (l : List (Int × Int)) : ∀ (kept : List (Int × Int)) (c : Int × Int),
    c ∈ keep 0 l kept ↔ c ∈ kept ∨ c ∈ l := by
  induction l with
  | nil => intro kept c; simp [keep]
  | cons p rest ih =>
    intro kept c
    unfold keep
    split_ifs with hk
    · rw [ih]
      obtain ⟨k, hk1, hk2⟩ := hk
      rw [near_zero] at hk2
      subst hk2
      constructor
      · rintro (h | h)
        · exact Or.inl h
        · exact Or.inr (List.mem_cons_of_mem _ h)
      · rintro (h | h)
        · exact Or.inl h
        · rcases List.mem_cons.mp h with h1 | h1
          · exact Or.inl (h1 ▸ hk1)
          · exact Or.inr h1
    · rw [ih]
      simp only [List.mem_append, List.mem_singleton, List.mem_cons]
      tauto

theorem mem_keep_of_first (r : Nat) (l : List (Int × Int)) :
    ∀ (kept : List (Int × Int)) (c : Int × Int) (k : Nat), l[k]? = some c →
      (∀ (h : Nat) (ch : Int × Int), h < k → l[h]? = some ch → ¬ near r ch c) →
      (∀ x ∈ kept, ¬ near r x c) → c ∈ keep r l kept := by
  induction l with
  | nil => intro kept c k hk; simp at hk
  | cons p rest ih =>
    intro kept c k hk hfirst hkept
    cases k with
    | zero =>
      simp only [List.getElem?_cons_zero, Option.some.injEq] at hk
      subst hk
      have hno : ¬ ∃ x ∈ kept, near r x p := fun ⟨x, hx1, hx2⟩ => hkept x hx1 hx2
      simp only [keep, if_neg hno]
      exact kept_subset_keep r rest _ p (List.mem_append_right _ (List.mem_singleton_self _))
    | succ m =>
      rw [List.getElem?_cons_succ] at hk
      have hp : ¬ near r p c := hfirst 0 p (Nat.succ_pos m) (by simp)
      have hfirst2 : ∀ (h : Nat) (ch : Int × Int), h < m → rest[h]? = some ch → ¬ near r ch c :=
        fun h ch hh hget => hfirst (h + 1) ch (by omega) (by simpa using hget)
      unfold keep
      split_ifs with hx
      · exact ih kept c m hk hfirst2 hkept
      · apply ih _ c m hk hfirst2
        intro x hx1
        rcases List.mem_append.mp hx1 with h1 | h1
        · exact hkept x h1
        · simp only [List.mem_singleton] at h1
          rw [h1]; exact hp

theorem keep_replicate (r : Nat) (c : Int × Int) (n : Nat) (kept : List (Int × Int))
    (h : ∃ k ∈ kept, near r k c) : keep r (List.replicate n c) kept = kept := by
  induction n with
  | zero => rfl
  | succ m ih => rw [List.replicate_succ]; simp only [keep, if_pos h]; exact ih

theorem indexAfter_replicate (c : Int × Int) (n : Nat) : ∀ (i d : Nat),
    indexAfter (List.replicate (n + 1) c) i c d = (i + n) % 65536 := by
  induction n with
  | zero => intro i d; simp [indexAfter]
  | succ m ih =>
    intro i d
    rw [List.replicate_succ]
    show indexAfter (List.replicate (m + 1) c) (i + 1) c (if c = c then i % 65536 else d) = _
    rw [ih]
    congr 1
    omega

theorem emitted_position {F : Type} (fl : FloatOps F) (wr hr : F) (cands : List (Int × Int))
    (r W H : Nat) (k : Nat) (c : Int × Int) (hk : (emittedCells cands r W H)[k]? = some c) :
    (validIdxs cands r W H)[k]? = some (indexAfter cands 0 (rawOf r c) 0) ∧
    rawOf r c ∈ cands ∧
    indexAfter cands 0 (rawOf r c) 0 < cands.length ∧
    cands[indexAfter cands 0 (rawOf r c) 0]? =
      some (cands.getD (indexAfter cands 0 (rawOf r c) 0) (0, 0)) ∧
    ((validIdxs cands r W H).map (fun i => emit fl wr hr (cands.getD i (0, 0))))[k]? =
      some (emit fl wr hr (cands.getD (indexAfter cands 0 (rawOf r c) 0) (0, 0))) ∧
    (cands.length ≤ 65536 →
      cands.getD (indexAfter cands 0 (rawOf r c) 0) (0, 0) = rawOf r c) := by
  have hv : (validIdxs cands r W H)[k]? = some (indexAfter cands 0 (rawOf r c) 0) := by
    unfold validIdxs
    rw [List.getElem?_map, hk]
    rfl
  have hmem : rawOf r c ∈ cands := by
    have hc := (mem_emittedCells cands r W H c).mp (List.mem_iff_getElem?.mpr ⟨k, hk⟩)
    rcases keep_subset r cands [] _ hc.2 with h | h
    · exact absurd h (List.not_mem_nil _)
    · exact h
  have hlt := indexAfter_lt cands (rawOf r c) 0 hmem
  refine ⟨hv, hmem, hlt, ?_, ?_, ?_⟩
  · simp [List.getD_eq_getElem?_getD, List.getElem?_eq_getElem hlt]
  · rw [List.getElem?_map, hv]
    rfl
  · intro hN
    have h1 := (indexAfter_getElem? cands (rawOf r c) hmem hN).1
    rw [List.getD_eq_getElem?_getD, h1]
    rfl

theorem emittedCells_nodup (cands : List (Int × Int)) (r W H : Nat) :
    (emittedCells cands r W H).Nodup :=
  List.Nodup.of_map (rawOf r) (emitted_raw_nodup cands r W H)

theorem rawOf_injective (r : Nat) (a b : Int × Int) (h : rawOf r a = rawOf r b) : a = b := by
  obtain ⟨a1, a2⟩ := a
  obtain ⟨b1, b2⟩ := b
  unfold rawOf at h
  simp only [Prod.mk.injEq] at h ⊢
  omega

theorem emitted_getD (cands : List (Int × Int)) (r W H : Nat) (c : Int × Int)
    (hc : c ∈ emittedCells cands r W H) (hN : cands.length ≤ 65536) :
    rawOf r c ∈ cands ∧
    cands[indexAfter cands 0 (rawOf r c) 0]? = some (rawOf r c) ∧
    cands.getD (indexAfter cands 0 (rawOf r c) 0) (0, 0) = rawOf r c := by
  have hmem : rawOf r c ∈ cands := by
    rcases keep_subset r cands [] _ ((mem_emittedCells cands r W H c).mp hc).2 with h | h
    · exact absurd h (List.not_mem_nil _)
    · exact h
  have h1 := (indexAfter_getElem? cands (rawOf r c) hmem hN).1
  refine ⟨hmem, h1, ?_⟩
  rw [List.getD_eq_getElem?_getD, h1]
  rfl

theorem validIdxs_nodup (cands : List (Int × Int)) (r W H : Nat) (hN : cands.length ≤ 65536) :
    (validIdxs cands r W H).Nodup := by
  unfold validIdxs
  apply List.Nodup.map_on _ (emittedCells_nodup cands r W H)
  intro x hx y hy hxy
  have h1 := (emitted_getD cands r W H x hx hN).2.1
  have h2 := (emitted_getD cands r W H y hy hN).2.1
  rw [hxy, h2] at h1
  exact rawOf_injective r x y (Option.some.inj h1).symm

/-- Output for candidate 0 at `(0,0)` followed by `n + 1` candidates at `(1,0)`, radius
0 in a 2 x 1 grid, when the last row index `n + 1` is a multiple of 65536. -/
theorem wrap_output (n : Nat) (hn : (1 + n) % 65536 = 0) :
    InBounds 2 1 ((0, 0) :: List.replicate (n + 1) (1, 0)) ∧
    NonMaximalSuppression intOps ((0, 0) :: List.replicate (n + 1) (1, 0)) (List.range (n + 2)) []
      0 2 1 1 1 = some ([⟨0, 0, 1⟩, ⟨0, 0, 1⟩], [0, 0]) := by
  have hb : InBounds 2 1 ((0, 0) :: List.replicate (n + 1) (1, 0)) := by
    intro p hp
    rcases List.mem_cons.mp hp with h | h
    · subst h; decide
    · rw [List.eq_of_mem_replicate h]; decide
  refine ⟨hb, ?_⟩
  have hlen : ((0, 0) :: List.replicate (n + 1) ((1 : Int), (0 : Int))).length ≤
      (List.range (n + 2)).length := by
    rw [List.length_cons, List.length_replicate, List.length_range]
  rw [NonMaximalSuppression_eq intOps _ _ [] 0 2 1 1 1 hb hlen]
  have hkeep : keep 0 ((0, 0) :: List.replicate (n + 1) (1, 0)) [] = [(0, 0), (1, 0)] := by
    have h1 : ¬ ∃ k ∈ ([] : List (Int × Int)), near 0 k (0, 0) := by
      rintro ⟨k, hk, -⟩; exact absurd hk (List.not_mem_nil _)
    have h2 : ¬ ∃ k ∈ [((0 : Int), (0 : Int))], near 0 k (1, 0) := by decide
    rw [List.replicate_succ]
    rw [keep, if_neg h1, List.nil_append, keep, if_neg h2]
    exact keep_replicate 0 (1, 0) n _
      ⟨(1, 0), List.mem_append_right _ (List.mem_singleton_self _), near_refl 0 _⟩
  have hcells : emittedCells ((0, 0) :: List.replicate (n + 1) (1, 0)) 0 2 1 =
      [(0, 0), (1, 0)] := by
    unfold emittedCells
    rw [hkeep]
    decide
  have hi0 : indexAfter ((0, 0) :: List.replicate (n + 1) (1, 0)) 0 (0, 0) 0 = 0 := by
    rw [indexAfter, indexAfter_not_mem]
    · rfl
    · intro hm
      have h := List.eq_of_mem_replicate hm
      exact absurd h (by decide)
  have hi1 : indexAfter ((0, 0) :: List.replicate (n + 1) (1, 0)) 0 (1, 0) 0 = 0 := by
    have hne : ¬ (((0 : Int), (0 : Int)) = (1, 0)) := by decide
    rw [indexAfter, if_neg hne, indexAfter_replicate]
    exact hn
  have hv : validIdxs ((0, 0) :: List.replicate (n + 1) (1, 0)) 0 2 1 = [0, 0] := by
    unfold validIdxs
    rw [hcells]
    have e0 : rawOf 0 ((0 : Int), (0 : Int)) = (0, 0) := by decide
    have e1 : rawOf 0 ((1 : Int), (0 : Int)) = (1, 0) := by decide
    rw [List.map_cons, List.map_cons, List.map_nil, e0, e1, hi0, hi1]
  have hd0 : (List.range (n + 2))[0]? = some 0 := by
    rw [List.getElem?_range (by omega)]
  rw [hv]
  simp only [List.nil_append, List.map_cons, List.map_nil, List.filterMap_cons, hd0,
    List.filterMap_nil, List.getD_cons_zero]
  rfl

/-! ## Composition of the passes and absent guards -/

theorem keep_append (r : Nat) (l1 l2 : List (Int × Int)) : ∀ kept : List (Int × Int),
    keep r (l1 ++ l2) kept = keep r l2 (keep r l1 kept) := by
  induction l1 with
  | nil => intro kept; rfl
  | cons c rest ih =>
    intro kept
    rw [List.cons_append]
    simp only [keep]
    split_ifs with h
    · exact ih kept
    · exact ih _

theorem keep_new (r : Nat) (l : List (Int × Int)) : ∀ (kept : List (Int × Int)) (c : Int × Int),
    c ∈ keep r l kept → c ∉ kept → c ∈ l ∧ ∀ k ∈ kept, ¬ near r k c := by
  induction l with
  | nil => intro kept c h hn; exact absurd h hn
  | cons p rest ih =>
    intro kept c h hn
    unfold keep at h
    split_ifs at h with hk
    · obtain ⟨h1, h2⟩ := ih kept c h hn
      exact ⟨List.mem_cons_of_mem _ h1, h2⟩
    · by_cases hcp : c = p
      · subst hcp
        refine ⟨List.mem_cons_self _ _, ?_⟩
        intro k hk1 hk2
        exact hk ⟨k, hk1, hk2⟩
      · have hn2 : c ∉ kept ++ [p] := by
          intro hm
          rcases List.mem_append.mp hm with h1 | h1
          · exact hn h1
          · exact hcp (List.mem_singleton.mp h1)
        obtain ⟨h1, h2⟩ := ih _ c h hn2
        exact ⟨List.mem_cons_of_mem _ h1, fun k hk1 => h2 k (List.mem_append_left _ hk1)⟩

theorem secondPass_append (r : Nat) (l1 l2 : List (Int × Int)) : ∀ g : Mat Nat,
    secondPass r (l1 ++ l2) g = (secondPass r l1 g).bind (secondPass r l2) := by
  induction l1 with
  | nil => intro g; rfl
  | cons c rest ih =>
    intro g
    obtain ⟨u0, v0⟩ := c
    rw [List.cons_append]
    simp only [secondPass]
    cases hread : g.atRead (v0 + (r : Int)) (u0 + (r : Int)) with
    | none => rfl
    | some x =>
      simp only [Option.some_bind]
      by_cases hx : x ≠ 1
      · rw [if_pos hx, if_pos hx]
        exact ih g
      · rw [if_neg hx, if_neg hx]
        cases hclear : clearOuter (v0 + (r : Int)) (u0 + (r : Int)) r
            (intRange (-(r : Int)) ((r : Int) + 1)) g with
        | none => rfl
        | some g1 =>
          simp only [Option.some_bind]
          cases hw : g1.atWrite (v0 + (r : Int)) (u0 + (r : Int)) 2 with
          | none => rfl
          | some g2 =>
            simp only [Option.some_bind]
            exact ih g2

theorem copyDescriptors_none {D : Type} (desc_raw : List D) (idxs : List Nat)
    (h : ∃ i ∈ idxs, desc_raw.length ≤ i) : copyDescriptors desc_raw idxs = none := by
  induction idxs with
  | nil => obtain ⟨i, hi, -⟩ := h; exact absurd hi (List.not_mem_nil _)
  | cons j rest ih =>
    unfold copyDescriptors
    by_cases hj : j < desc_raw.length
    · have hrest : ∃ i ∈ rest, desc_raw.length ≤ i := by
        obtain ⟨i, hi, hle⟩ := h
        rcases List.mem_cons.mp hi with h1 | h1
        · omega
        · exact ⟨i, h1, hle⟩
      rw [ih hrest, List.getElem?_eq_getElem hj]
      rfl
    · rw [List.getElem?_eq_none (by omega)]
      rfl

theorem firstPass_none (W H : Nat) (l : List (Int × Int)) : ∀ (i : Nat) (g ix : Mat Nat),
    g.rows = H → g.cols = W → ¬ InBounds W H l → firstPass l i g ix = none := by
  induction l with
  | nil => intro i g ix _ _ h; exact absurd (fun p hp => absurd hp (List.not_mem_nil _)) h
  | cons c rest ih =>
    intro i g ix hr hc h
    obtain ⟨u, v⟩ := c
    unfold firstPass
    by_cases hin : 0 ≤ v ∧ v < (g.rows : Int) ∧ 0 ≤ u ∧ u < (g.cols : Int)
    · rw [atWrite_of_inb g v u 1 hin]
      simp only [Option.some_bind]
      cases hix : ix.atWrite v u (i % 65536) with
      | none => rfl
      | some ix1 =>
        simp only [Option.some_bind]
        have hrest : ¬ InBounds W H rest := by
          intro hrest
          apply h
          intro p hp
          rcases List.mem_cons.mp hp with h1 | h1
          · subst h1
            simp only
            rw [hr, hc] at hin
            omega
          · exact hrest p h1
        exact ih (i + 1) (Mat.mk g.rows g.cols _) ix1 hr hc hrest
    · have hw : g.atWrite v u 1 = none := by
        unfold Mat.atWrite
        rw [if_neg hin]
      rw [hw]
      rfl

theorem NonMaximalSuppression_none {F D : Type} (fl : FloatOps F) (cands : List (Int × Int))
    (descs : List D) (kps0 : List (KeyPoint F)) (r W H : Nat) (wr hr : F)
    (h : ¬ InBounds W H cands) :
    NonMaximalSuppression fl cands descs kps0 r W H wr hr = none := by
  unfold NonMaximalSuppression suppress
  rw [firstPass_none W H cands 0 _ _ rfl rfl h]
  rfl

theorem NonMaximalSuppression_eq_copy {F D : Type} (fl : FloatOps F)
    (cands : List (Int × Int)) (descs : List D) (kps0 : List (KeyPoint F)) (r W H : Nat)
    (wr hr : F) (hb : InBounds W H cands) :
    NonMaximalSuppression fl cands descs kps0 r W H wr hr =
      (copyDescriptors descs (validIdxs cands r W H)).map fun ds =>
        (kps0 ++ (validIdxs cands r W H).map (fun i => emit fl wr hr (cands.getD i (0, 0))),
         ds) := by
  unfold NonMaximalSuppression
  rw [suppress_eq cands r W H hb]
  simp only [Option.some_bind]
  rw [thirdPass_suppress]
  simp only [Option.some_bind]

theorem naivePairwiseSelect_eq_keep (r : Nat) (cands : List (Int × Int)) :
    naivePairwiseSelect r cands = keep r cands [] := by
  have hgen : ∀ (l kept : List (Int × Int)),
      l.foldl
        (fun kept c =>
          if kept.any (fun k => decide (|k.1 - c.1| ≤ (r : Int) ∧ |k.2 - c.2| ≤ (r : Int)))
          then kept else kept ++ [c])
        kept = keep r l kept := by
    intro l
    induction l with
    | nil => intro kept; rfl
    | cons c rest ih =>
      intro kept
      rw [List.foldl_cons, ih]
      have hiff : (kept.any (fun k =>
          decide (|k.1 - c.1| ≤ (r : Int) ∧ |k.2 - c.2| ≤ (r : Int))) = true) ↔
          ∃ k ∈ kept, near r k c := by
        rw [List.any_eq_true]
        constructor
        · rintro ⟨k, hk, hd⟩
          refine ⟨k, hk, ?_⟩
          simp only [decide_eq_true_eq, abs_le] at hd
          unfold near
          omega
        · rintro ⟨k, hk, hn⟩
          refine ⟨k, hk, ?_⟩
          unfold near at hn
          simp only [decide_eq_true_eq, abs_le]
          omega
      by_cases hk : ∃ k ∈ kept, near r k c
      · rw [if_pos (hiff.mpr hk)]
        simp only [keep, if_pos hk]
      · rw [if_neg (fun hh => hk (hiff.mp hh))]
        simp only [keep, if_neg hk]
  exact hgen cands []

theorem validIdxs_of_small (cands : List (Int × Int)) (r W H : Nat)
    (h : (W : Int) ≤ 2 * (r : Int) ∨ (H : Int) ≤ 2 * (r : Int)) : validIdxs cands r W H = [] := by
  have hs : scanCells r W H = [] := by
    apply List.eq_nil_iff_forall_not_mem.mpr
    intro c hc
    rw [mem_scanCells] at hc
    omega
  unfold validIdxs emittedCells
  rw [hs]
  rfl

/-- Output for `n + 1` candidates at the one cell of a 1 x 1 grid, radius 0, when the
last row index `n` is a multiple of 65536: the index map holds 0 and the descriptor
row of candidate 0 is returned. -/
theorem same_cell_wrap (n : Nat) (hn : n % 65536 = 0) :
    InBounds 1 1 (List.replicate (n + 1) (0, 0)) ∧
    (List.replicate (n + 1) ((0 : Int), (0 : Int)))[n]? = some (0, 0) ∧
    (∃ g ix, firstPass (List.replicate (n + 1) (0, 0)) 0 (Mat.zeros 1 1) (Mat.zeros 1 1) =
      some (g, ix) ∧ ix.data 0 0 = 0) ∧
    NonMaximalSuppression intOps (List.replicate (n + 1) (0, 0)) (List.range (n + 1)) []
      0 1 1 1 1 = some ([⟨0, 0, 1⟩], [0]) := by
  have hb : InBounds 1 1 (List.replicate (n + 1) (0, 0)) := by
    intro p hp
    rw [List.eq_of_mem_replicate hp]; decide
  have hidx : indexAfter (List.replicate (n + 1) ((0 : Int), (0 : Int))) 0 (0, 0) 0 = 0 := by
    rw [indexAfter_replicate, Nat.zero_add]
    exact hn
  refine ⟨hb, ?_, ?_, ?_⟩
  · rw [List.getElem?_replicate, if_pos (Nat.lt_succ_self n)]
  · refine ⟨_, _, firstPass_eq _ 0 (Mat.zeros 1 1) (Mat.zeros 1 1)
      (fun p hp => by
        have := hb p hp
        simp only [Mat.zeros]
        omega) rfl rfl, ?_⟩
    exact hidx
  · have hlen : (List.replicate (n + 1) ((0 : Int), (0 : Int))).length ≤
        (List.range (n + 1)).length := by
      rw [List.length_replicate, List.length_range]
    rw [NonMaximalSuppression_eq intOps _ _ [] 0 1 1 1 1 hb hlen]
    have hkeep : keep 0 (List.replicate (n + 1) (0, 0)) [] = [(0, 0)] := by
      have h1 : ¬ ∃ k ∈ ([] : List (Int × Int)), near 0 k (0, 0) := by
        rintro ⟨k, hk, -⟩; exact absurd hk (List.not_mem_nil _)
      rw [List.replicate_succ, keep, if_neg h1, List.nil_append]
      exact keep_replicate 0 (0, 0) n _ ⟨(0, 0), List.mem_singleton_self _, near_refl 0 _⟩
    have hcells : emittedCells (List.replicate (n + 1) (0, 0)) 0 1 1 = [(0, 0)] := by
      unfold emittedCells
      rw [hkeep]
      decide
    have hv : validIdxs (List.replicate (n + 1) (0, 0)) 0 1 1 = [0] := by
      unfold validIdxs
      rw [hcells]
      have e0 : rawOf 0 ((0 : Int), (0 : Int)) = (0, 0) := by decide
      rw [List.map_cons, List.map_nil, e0, hidx]
    have hd0 : (List.range (n + 1))[0]? = some 0 := by
      rw [List.getElem?_range (by omega)]
    have hc0 : (List.replicate (n + 1) ((0 : Int), (0 : Int))).getD 0 (0, 0) = (0, 0) := by
      rw [List.replicate_succ, List.getD_cons_zero]
    rw [hv]
    simp only [List.nil_append, List.map_cons, List.map_nil, List.filterMap_cons, hd0,
      List.filterMap_nil, hc0]
    rfl

theorem padded_data (cands : List (Int × Int)) (r W H : Nat) (hb : InBounds W H cands) :
    (copyMakeBorder ⟨H, W, fun a b => if (b, a) ∈ cands then 1 else 0⟩ r r r r 0).data =
      cellState r [] cands := by
  funext row col
  simp only [copyMakeBorder, cellState]
  have hnil : (if (col - (r : Int), row - (r : Int)) ∈ ([] : List (Int × Int)) then 2
      else if (col - (r : Int), row - (r : Int)) ∈ cands ∧
        ∀ k ∈ ([] : List (Int × Int)), ¬ near r k (col - (r : Int), row - (r : Int))
      then 1 else 0) =
      if (col - (r : Int), row - (r : Int)) ∈ cands then 1 else 0 := by
    rw [if_neg (List.not_mem_nil _)]
    by_cases hm : (col - (r : Int), row - (r : Int)) ∈ cands
    · rw [if_pos hm, if_pos ⟨hm, fun k hk => absurd hk (List.not_mem_nil _)⟩]
    · rw [if_neg hm, if_neg (fun hh => hm hh.1)]
  rw [hnil]
  by_cases hr : 0 ≤ row - (r : Int) ∧ row - (r : Int) < (H : Int) ∧
      0 ≤ col - (r : Int) ∧ col - (r : Int) < (W : Int)
  · rw [if_pos hr]
  · rw [if_neg hr]
    by_cases hm : (col - (r : Int), row - (r : Int)) ∈ cands
    · have := hb _ hm
      simp only at this
      exact absurd ⟨this.2.2.1, this.2.2.2, this.1, this.2.1⟩ hr
    · rw [if_neg hm]

theorem cellState_eq_two (r : Nat) (kept l : List (Int × Int)) (row col : Int) :
    cellState r kept l row col = 2 ↔ (col - (r : Int), row - (r : Int)) ∈ kept := by
  unfold cellState
  by_cases h : (col - (r : Int), row - (r : Int)) ∈ kept
  · simp [h]
  · rw [if_neg h]
    constructor
    · intro h2
      split_ifs at h2
      all_goals omega
    · intro h2; exact absurd h2 h

theorem cellState_eq_zero (r : Nat) (kept l : List (Int × Int)) (row col : Int) :
    cellState r kept l row col = 0 ↔
      (col - (r : Int), row - (r : Int)) ∉ kept ∧
      ¬ ((col - (r : Int), row - (r : Int)) ∈ l ∧
        ∀ k ∈ kept, ¬ near r k (col - (r : Int), row - (r : Int))) := by
  unfold cellState
  by_cases h : (col - (r : Int), row - (r : Int)) ∈ kept
  · rw [if_pos h]
    constructor
    · intro h2; exact absurd h2 (by decide)
    · intro h2; exact absurd h h2.1
  · rw [if_neg h]
    by_cases h3 : (col - (r : Int), row - (r : Int)) ∈ l ∧
        ∀ k ∈ kept, ¬ near r k (col - (r : Int), row - (r : Int))
    · rw [if_pos h3]
      constructor
      · intro h2; exact absurd h2 (by decide)
      · intro h2; exact absurd h3 h2.2
    · rw [if_neg h3]
      exact ⟨fun _ => ⟨h, h3⟩, fun _ => rfl⟩

theorem indexAfter_append_singleton (p : Int × Int) (l : List (Int × Int)) : ∀ (i d : Nat),
    indexAfter (l ++ [p]) i p d = (i + l.length) % 65536 := by
  induction l with
  | nil => intro i d; simp [indexAfter]
  | cons q rest ih =>
    intro i d
    rw [List.cons_append, indexAfter, ih, List.length_cons]
    congr 1
    omega

theorem mem_keep_of_split (r : Nat) (pre post : List (Int × Int)) (c : Int × Int)
    (hs : ∀ k ∈ pre, k ∈ keep r (pre ++ c :: post) [] → near r k c → k = c) :
    c ∈ keep r (pre ++ c :: post) [] := by
  have hsub : ∀ k ∈ keep r pre [], k ∈ keep r (pre ++ c :: post) [] := by
    intro k hk
    rw [keep_append]
    exact kept_subset_keep r _ _ k hk
  by_cases hex : ∃ k ∈ keep r pre [], near r k c
  · obtain ⟨k, hk1, hk2⟩ := hex
    have hkpre : k ∈ pre := by
      rcases keep_subset r pre [] k hk1 with h | h
      · exact absurd h (List.not_mem_nil _)
      · exact h
    have hkc : k = c := hs k hkpre (hsub k hk1) hk2
    exact hkc ▸ hsub k hk1
  · rw [keep_append]
    simp only [keep, if_neg hex]
    exact kept_subset_keep r post _ c (List.mem_append_right _ (List.mem_singleton_self _))

theorem mem_keep_of_no_earlier_survivor (r : Nat) (cands : List (Int × Int)) (i : Nat)
    (ci : Int × Int) (hi : cands[i]? = some ci)
    (hs : ∀ (h : Nat) (ch : Int × Int), h < i → cands[h]? = some ch →
      ch ∈ keep r cands [] → near r ch ci → ch = ci) :
    ci ∈ keep r cands [] := by
  obtain ⟨hlt, hget⟩ := List.getElem?_eq_some.mp hi
  have hsplit : cands.take i ++ ci :: cands.drop (i + 1) = cands := by
    rw [← hget, ← List.drop_eq_getElem_cons hlt, List.take_append_drop]
  have hmain := mem_keep_of_split r (cands.take i) (cands.drop (i + 1)) ci (by
    intro k hk hkeep hn
    rw [hsplit] at hkeep
    obtain ⟨h, hh, hk2⟩ := List.mem_take_iff_getElem.mp hk
    have hh1 : h < i := lt_of_lt_of_le hh (Nat.min_le_left _ _)
    have hh2 : h < cands.length := lt_of_lt_of_le hh (Nat.min_le_right _ _)
    exact hs h k hh1 (by rw [List.getElem?_eq_getElem hh2, hk2]) hkeep hn)
  rw [hsplit] at hmain
  exact hmain

theorem mem_keep_iff_no_earlier_survivor (r : Nat) (cands : List (Int × Int)) (i : Nat)
    (ci : Int × Int) (hi : cands[i]? = some ci) :
    ci ∈ keep r cands [] ↔
      ∀ (h : Nat) (ch : Int × Int), h < i → cands[h]? = some ch →
        ch ∈ keep r cands [] → near r ch ci → ch = ci := by
  constructor
  · intro hk h ch _ _ hch hn
    exact keep_separated r cands [] (fun a ha => absurd ha (List.not_mem_nil _)) _ hch _ hk hn
  · exact mem_keep_of_no_earlier_survivor r cands i ci hi

/-! ## Claims -/

/-- C1: for an in-bounds candidate list and an equally long descriptor list, the
call returns as many descriptor rows as key points, and at every output position
`k` there is a candidate index `idx` such that key point `k` is the rescaled raw
coordinate of candidate `idx` and descriptor row `k` is the raw descriptor at the
same `idx`. -/
theorem C1_index_correspondence {F D : Type} (fl : FloatOps F) (cands : List (Int × Int))
    (descs : List D) (r W H : Nat) (wr hr : F)
    (hb : InBounds W H cands) (hd : descs.length = cands.length) :
    ∃ kps ds, NonMaximalSuppression fl cands descs [] r W H wr hr = some (kps, ds) ∧
      ds.length = kps.length ∧
      ∀ k : Nat, k < kps.length →
        ∃ (idx : Nat) (p : Int × Int) (d : D), cands[idx]? = some p ∧ descs[idx]? = some d ∧
          kps[k]? = some (emit fl wr hr p) ∧ ds[k]? = some d := by
  refine ⟨_, _, NonMaximalSuppression_eq fl cands descs [] r W H wr hr hb (le_of_eq hd.symm), ?_⟩
  obtain ⟨h1, h2, h3⟩ := emits_validIdxs fl wr hr cands descs r W H (le_of_eq hd.symm)
  simp only [List.nil_append]
  refine ⟨by rw [h1, h2], ?_⟩
  intro k hk
  rw [h1] at hk
  obtain ⟨p, d, hp, hdd, hkp, hds⟩ := h3 k _ (List.getElem?_eq_getElem hk)
  exact ⟨_, p, d, hp, hdd, hkp, hds⟩

/-- Instance of C1 on three candidates in a 16 x 16 grid with radius 2. -/
theorem C1_index_correspondence_witness :
    (InBounds 16 16 [(1, 1), (2, 2), (6, 6)] ∧ [10, 11, 12].length = [(1, 1), (2, 2), (6, 6)].length) ∧
    ∃ kps ds, NonMaximalSuppression intOps [(1, 1), (2, 2), (6, 6)] [10, 11, 12] [] 2 16 16 3 5 =
        some (kps, ds) ∧
      ds.length = kps.length ∧
      ∀ k : Nat, k < kps.length →
        ∃ (idx : Nat) (p : Int × Int) (d : Nat),
          [((1 : Int), (1 : Int)), (2, 2), (6, 6)][idx]? = some p ∧ [10, 11, 12][idx]? = some d ∧
          kps[k]? = some (emit intOps 3 5 p) ∧ ds[k]? = some d :=
  ⟨⟨by decide, by decide⟩,
    C1_index_correspondence intOps [(1, 1), (2, 2), (6, 6)] [10, 11, 12] 2 16 16 3 5
      (by decide) (by decide)⟩

/-- C2: for an in-bounds candidate list, after the second pass the square of side
`2 * r + 1` centred on a cell holding 2 (survivor) holds 0 (neither occupied nor
survivor) at every other cell; and the cells from which two distinct output key
points are emitted are not within `r` of each other in both axes. -/
theorem C2_survivor_isolation {F D : Type} (fl : FloatOps F) (cands : List (Int × Int))
    (descs : List D) (r W H : Nat) (wr hr : F)
    (hb : InBounds W H cands) (hd : descs.length = cands.length) :
    ∃ g ix kps ds, suppress cands r W H = some (g, ix) ∧
      NonMaximalSuppression fl cands descs [] r W H wr hr = some (kps, ds) ∧
      (∀ row col : Int, g.data row col = 2 → ∀ row' col' : Int, (row', col') ≠ (row, col) →
        row - (r : Int) ≤ row' → row' ≤ row + (r : Int) →
        col - (r : Int) ≤ col' → col' ≤ col + (r : Int) → g.data row' col' = 0) ∧
      kps = (hits g r W H).map
        (fun c => emit fl wr hr (cands.getD (cellIndex ix r c) (0, 0))) ∧
      (hits g r W H).Pairwise (fun a b => ¬ near r (rawOf r a) (rawOf r b)) := by
  refine ⟨_, _, _, _, suppress_eq cands r W H hb,
    NonMaximalSuppression_eq fl cands descs [] r W H wr hr hb (le_of_eq hd.symm), ?_, ?_, ?_⟩
  · intro row col h2 row' col' hne h1 h3 h4 h5
    simp only at h2 ⊢
    rw [cellState_nil_eq_two] at h2
    have hk : (col' - (r : Int), row' - (r : Int)) ∉ keep r cands [] := by
      intro hk
      have heq := keep_separated r cands [] (fun a ha => absurd ha (List.not_mem_nil _))
        _ h2 _ hk (by unfold near; simp only; omega)
      simp only [Prod.mk.injEq] at heq
      apply hne
      simp only [Prod.mk.injEq]
      omega
    unfold cellState
    rw [if_neg hk, if_neg (fun hh => absurd hh.1 (List.not_mem_nil _))]
  · rw [hits_suppress]
    simp only [List.nil_append, validIdxs, List.map_map]
    rfl
  · rw [hits_suppress]
    apply (emittedCells_pairwise cands r W H).imp_of_mem
    intro a b ha hb2 hlt hn
    have heq := keep_separated r cands [] (fun x hx => absurd hx (List.not_mem_nil _))
      _ ((mem_emittedCells cands r W H a).mp ha).2 _ ((mem_emittedCells cands r W H b).mp hb2).2 hn
    rw [← scanLt_rawOf r, heq] at hlt
    unfold scanLt at hlt
    omega

/-- Instance of C2 on three candidates in a 16 x 16 grid with radius 2. -/
theorem C2_survivor_isolation_witness :
    (InBounds 16 16 [(1, 1), (2, 2), (6, 6)] ∧ [10, 11, 12].length = [(1, 1), (2, 2), (6, 6)].length) ∧
    ∃ g ix kps ds, suppress [(1, 1), (2, 2), (6, 6)] 2 16 16 = some (g, ix) ∧
      NonMaximalSuppression intOps [(1, 1), (2, 2), (6, 6)] [10, 11, 12] [] 2 16 16 3 5 =
        some (kps, ds) ∧
      (∀ row col : Int, g.data row col = 2 → ∀ row' col' : Int, (row', col') ≠ (row, col) →
        row - ((2 : Nat) : Int) ≤ row' → row' ≤ row + ((2 : Nat) : Int) →
        col - ((2 : Nat) : Int) ≤ col' → col' ≤ col + ((2 : Nat) : Int) → g.data row' col' = 0) ∧
      kps = (hits g 2 16 16).map
        (fun c => emit intOps 3 5 ([((1 : Int), (1 : Int)), (2, 2), (6, 6)].getD (cellIndex ix 2 c) (0, 0))) ∧
      (hits g 2 16 16).Pairwise (fun a b => ¬ near 2 (rawOf 2 a) (rawOf 2 b)) :=
  ⟨⟨by decide, by decide⟩,
    C2_survivor_isolation intOps [(1, 1), (2, 2), (6, 6)] [10, 11, 12] 2 16 16 3 5
      (by decide) (by decide)⟩

/-- C3: evaluation at two candidates farther apart than `2 * r` in both axes, in an
8 x 8 grid with radius 2: the candidate at `(6, 6)` is not output, so `M = 1` while
`N = 2`. -/
theorem C3_far_apart_candidate_dropped {F D : Type} (fl : FloatOps F) (wr hr : F) (d0 d1 : D) :
    InBounds 8 8 [(1, 1), (6, 6)] ∧ farApart (2 * 2) (1, 1) (6, 6) ∧
    NonMaximalSuppression fl [(1, 1), (6, 6)] [d0, d1] [] 2 8 8 wr hr =
      some ([emit fl wr hr (1, 1)], [d0]) := by
  refine ⟨by decide, by decide, ?_⟩
  rw [NonMaximalSuppression_eq fl _ _ [] 2 8 8 wr hr (by decide) (by simp)]
  have hv : validIdxs [(1, 1), (6, 6)] 2 8 8 = [0] := by decide
  rw [hv]
  rfl

/-- C4 (counterexample): with radius 2 in a 16 x 8 grid, candidates 1 and 2 of
`[(0,0), (2,0), (4,0)]` are within radius of each other, yet the earlier one
(descriptor 101) is absent from the output and the later one (descriptor 102) is
present; and of two candidates at the same cell `(1,1)` the output carries the
descriptor of the later one (201), not of the earlier one (200). -/
theorem C4_counterexample :
    (InBounds 16 8 [(0, 0), (2, 0), (4, 0)] ∧ near 2 ((2 : Int), (0 : Int)) (4, 0) ∧
      NonMaximalSuppression intOps [(0, 0), (2, 0), (4, 0)] [100, 101, 102] [] 2 16 8 1 1 =
        some ([⟨0, 0, 1⟩, ⟨4, 0, 1⟩], [100, 102]) ∧
      (101 : Nat) ∉ [100, 102] ∧ (102 : Nat) ∈ [100, 102]) ∧
    (InBounds 16 8 [(1, 1), (1, 1)] ∧ near 2 ((1 : Int), (1 : Int)) (1, 1) ∧
      NonMaximalSuppression intOps [(1, 1), (1, 1)] [200, 201] [] 2 16 8 1 1 =
        some ([⟨1, 1, 1⟩], [201])) := by
  decide

/-- C4 (amended): for an in-bounds candidate list and candidates `i < j` at
different cells within `r` of each other in both axes, if candidate `i` is not
cleared by an earlier survivor (every candidate before `i` that the greedy
selection keeps and that is within `r` of candidate `i` sits at the cell of `i`),
then after the second pass the cell of `i` holds 2 (survivor), the cell of `j` holds
0, and no key point is emitted from the cell of `j`, whatever the descriptors
are. -/
theorem C4_surviving_candidate_suppresses_later {F D : Type} (fl : FloatOps F)
    (cands : List (Int × Int)) (descs : List D) (r W H : Nat) (wr hr : F)
    (i j : Nat) (ci cj : Int × Int)
    (hb : InBounds W H cands) (hd : descs.length = cands.length)
    (_hij : i < j) (hi : cands[i]? = some ci) (_hj : cands[j]? = some cj)
    (hnear : near r ci cj) (hne : ci ≠ cj)
    (hlive : ∀ (h : Nat) (ch : Int × Int), h < i → cands[h]? = some ch →
      ch ∈ keep r cands [] → near r ch ci → ch = ci) :
    ∃ g ix kps ds, suppress cands r W H = some (g, ix) ∧
      NonMaximalSuppression fl cands descs [] r W H wr hr = some (kps, ds) ∧
      g.data (ci.2 + (r : Int)) (ci.1 + (r : Int)) = 2 ∧
      g.data (cj.2 + (r : Int)) (cj.1 + (r : Int)) = 0 ∧
      kps = (hits g r W H).map
        (fun c => emit fl wr hr (cands.getD (cellIndex ix r c) (0, 0))) ∧
      (cj.1 + (r : Int), cj.2 + (r : Int)) ∉ hits g r W H := by
  have hki : ci ∈ keep r cands [] := mem_keep_of_no_earlier_survivor r cands i ci hi hlive
  have hkj : cj ∉ keep r cands [] := fun hk =>
    hne (keep_separated r cands [] (fun a ha => absurd ha (List.not_mem_nil _)) _ hki _ hk hnear)
  have hsi : (ci.1 + (r : Int) - (r : Int), ci.2 + (r : Int) - (r : Int)) = ci := by
    obtain ⟨a, b⟩ := ci; simp
  have hsj : (cj.1 + (r : Int) - (r : Int), cj.2 + (r : Int) - (r : Int)) = cj := by
    obtain ⟨a, b⟩ := cj; simp
  refine ⟨_, _, _, _, suppress_eq cands r W H hb,
    NonMaximalSuppression_eq fl cands descs [] r W H wr hr hb (le_of_eq hd.symm), ?_, ?_, ?_, ?_⟩
  · simp only
    rw [cellState_nil_eq_two, hsi]
    exact hki
  · simp only
    unfold cellState
    rw [hsj, if_neg hkj, if_neg (fun hh => absurd hh.1 (List.not_mem_nil _))]
  · rw [hits_suppress]
    simp only [List.nil_append, validIdxs, List.map_map]
    rfl
  · rw [hits_suppress, mem_emittedCells]
    rintro ⟨-, h2⟩
    unfold rawOf at h2
    simp only at h2
    rw [hsj] at h2
    exact hkj h2

/-- Instance of the amended C4: candidates 2 and 3 of `[(0,0), (2,0), (4,0), (5,0)]`
with radius 2 in a 16 x 8 grid; candidate 1, near candidate 2, is itself suppressed
by candidate 0. -/
theorem C4_surviving_candidate_suppresses_later_witness :
    (InBounds 16 8 [(0, 0), (2, 0), (4, 0), (5, 0)] ∧
      [10, 11, 12, 13].length = [((0 : Int), (0 : Int)), (2, 0), (4, 0), (5, 0)].length ∧
      2 < 3 ∧ [((0 : Int), (0 : Int)), (2, 0), (4, 0), (5, 0)][2]? = some (4, 0) ∧
      [((0 : Int), (0 : Int)), (2, 0), (4, 0), (5, 0)][3]? = some (5, 0) ∧
      near 2 ((4 : Int), (0 : Int)) (5, 0) ∧ ((4 : Int), (0 : Int)) ≠ (5, 0) ∧
      ∀ (h : Nat) (ch : Int × Int), h < 2 →
        [((0 : Int), (0 : Int)), (2, 0), (4, 0), (5, 0)][h]? = some ch →
        ch ∈ keep 2 [(0, 0), (2, 0), (4, 0), (5, 0)] [] → near 2 ch (4, 0) → ch = (4, 0)) ∧
    ∃ g ix kps ds, suppress [(0, 0), (2, 0), (4, 0), (5, 0)] 2 16 8 = some (g, ix) ∧
      NonMaximalSuppression intOps [(0, 0), (2, 0), (4, 0), (5, 0)] [10, 11, 12, 13] []
        2 16 8 3 5 = some (kps, ds) ∧
      g.data (((4 : Int), (0 : Int)).2 + ((2 : Nat) : Int))
        (((4 : Int), (0 : Int)).1 + ((2 : Nat) : Int)) = 2 ∧
      g.data (((5 : Int), (0 : Int)).2 + ((2 : Nat) : Int))
        (((5 : Int), (0 : Int)).1 + ((2 : Nat) : Int)) = 0 ∧
      kps = (hits g 2 16 8).map
        (fun c => emit intOps 3 5
          ([((0 : Int), (0 : Int)), (2, 0), (4, 0), (5, 0)].getD (cellIndex ix 2 c) (0, 0))) ∧
      (((5 : Int), (0 : Int)).1 + ((2 : Nat) : Int),
        ((5 : Int), (0 : Int)).2 + ((2 : Nat) : Int)) ∉ hits g 2 16 8 := by
  have hlive : ∀ (h : Nat) (ch : Int × Int), h < 2 →
      [((0 : Int), (0 : Int)), (2, 0), (4, 0), (5, 0)][h]? = some ch →
      ch ∈ keep 2 [(0, 0), (2, 0), (4, 0), (5, 0)] [] → near 2 ch (4, 0) → ch = (4, 0) := by
    intro h ch hh hget hk hn
    have h01 : h = 0 ∨ h = 1 := by omega
    rcases h01 with h0 | h1
    · subst h0
      simp only [List.getElem?_cons_zero, Option.some.injEq] at hget
      subst hget
      exact absurd hn (by decide)
    · subst h1
      simp only [List.getElem?_cons_succ, List.getElem?_cons_zero, Option.some.injEq] at hget
      subst hget
      exact absurd hk (by decide)
  exact ⟨⟨by decide, by decide, by decide, by decide, by decide, by decide, by decide, hlive⟩,
    C4_surviving_candidate_suppresses_later intOps [(0, 0), (2, 0), (4, 0), (5, 0)]
      [10, 11, 12, 13] 2 16 8 3 5 2 3 (4, 0) (5, 0) (by decide) (by decide) (by decide)
      (by decide) (by decide) (by decide) (by decide) hlive⟩

/-- C5: evaluation at the example `W = H = 8`, radius 2, candidates
`[(1,1), (2,2), (6,6)]`: the function returns the single key point derived from
`(1,1)` with descriptor `d0`; the candidate at `(6,6)` is not output. -/
theorem C5_example_output {F D : Type} (fl : FloatOps F) (wr hr : F) (d0 d1 d2 : D) :
    NonMaximalSuppression fl [(1, 1), (2, 2), (6, 6)] [d0, d1, d2] [] 2 8 8 wr hr =
      some ([emit fl wr hr (1, 1)], [d0]) := by
  rw [NonMaximalSuppression_eq fl _ _ [] 2 8 8 wr hr (by decide) (by simp)]
  have hv : validIdxs [(1, 1), (2, 2), (6, 6)] 2 8 8 = [0] := by decide
  rw [hv]
  rfl

/-- C6: evaluation at the single candidate `(6, 6)` in an 8 x 8 grid with radius 2:
after the second pass its padded cell `(8, 8)` holds 2 (survivor), yet the third
pass emits no key point and no descriptor row. -/
theorem C6_survivor_not_scanned {F D : Type} (fl : FloatOps F) (wr hr : F) (d0 : D) :
    InBounds 8 8 [(6, 6)] ∧
    (∃ g ix, suppress [(6, 6)] 2 8 8 = some (g, ix) ∧ g.data 8 8 = 2) ∧
    NonMaximalSuppression fl [(6, 6)] [d0] [] 2 8 8 wr hr = some ([], []) := by
  refine ⟨by decide, ⟨_, _, suppress_eq [(6, 6)] 2 8 8 (by decide), by decide⟩, ?_⟩
  rw [NonMaximalSuppression_eq fl _ _ [] 2 8 8 wr hr (by decide) (by simp)]
  have hv : validIdxs [(6, 6)] 2 8 8 = [] := by decide
  rw [hv]
  rfl

/-- C7: for an in-bounds candidate list of length `N`, called with an empty key
point vector, the output length `M` satisfies `M ≤ N`, the descriptor array has
`M` rows, and for `N = 0` both outputs are empty. -/
theorem C7_cardinality {F D : Type} (fl : FloatOps F) (cands : List (Int × Int))
    (descs : List D) (r W H : Nat) (wr hr : F)
    (hb : InBounds W H cands) (hd : descs.length = cands.length) :
    ∃ kps ds, NonMaximalSuppression fl cands descs [] r W H wr hr = some (kps, ds) ∧
      kps.length ≤ cands.length ∧ ds.length = kps.length ∧
      (cands.length = 0 → kps = [] ∧ ds = []) := by
  refine ⟨_, _, NonMaximalSuppression_eq fl cands descs [] r W H wr hr hb (le_of_eq hd.symm), ?_⟩
  obtain ⟨h1, h2, -⟩ := emits_validIdxs fl wr hr cands descs r W H (le_of_eq hd.symm)
  have hle := validIdxs_length_le cands r W H
  simp only [List.nil_append]
  refine ⟨by rw [h1]; exact hle, by rw [h1, h2], ?_⟩
  intro h0
  have hz : (validIdxs cands r W H).length = 0 := by omega
  rw [List.length_eq_zero] at hz
  rw [hz]
  simp

/-- Instance of C7 on three candidates in a 16 x 16 grid with radius 2. -/
theorem C7_cardinality_witness :
    (InBounds 16 16 [(1, 1), (2, 2), (6, 6)] ∧ [10, 11, 12].length = [(1, 1), (2, 2), (6, 6)].length) ∧
    ∃ kps ds, NonMaximalSuppression intOps [(1, 1), (2, 2), (6, 6)] [10, 11, 12] [] 2 16 16 3 5 =
        some (kps, ds) ∧
      kps.length ≤ [((1 : Int), (1 : Int)), (2, 2), (6, 6)].length ∧ ds.length = kps.length ∧
      ([((1 : Int), (1 : Int)), (2, 2), (6, 6)].length = 0 → kps = [] ∧ ds = []) :=
  ⟨⟨by decide, by decide⟩,
    C7_cardinality intOps [(1, 1), (2, 2), (6, 6)] [10, 11, 12] 2 16 16 3 5
      (by decide) (by decide)⟩

/-- C8: every key point emitted has coordinates `(u * width_ratio, v *
height_ratio)`, one product per axis of the converted integer raw coordinate
`(u, v)` of the candidate read back from the index map, with no padding offset:
for at most 65536 candidates `(u, v)` is the padded cell of the visit minus the
radius. -/
theorem C8_scaling {F D : Type} (fl : FloatOps F) (cands : List (Int × Int))
    (descs : List D) (r W H : Nat) (wr hr : F)
    (hb : InBounds W H cands) (hd : descs.length = cands.length) :
    ∃ g ix kps ds, suppress cands r W H = some (g, ix) ∧
      NonMaximalSuppression fl cands descs [] r W H wr hr = some (kps, ds) ∧
      kps.length = (hits g r W H).length ∧
      ∀ (k : Nat) (c : Int × Int), (hits g r W H)[k]? = some c →
        ∃ (idx : Nat) (u v : Int), idx = cellIndex ix r c ∧ cands[idx]? = some (u, v) ∧
          kps[k]? = some ⟨fl.mul (fl.ofInt u) wr, fl.mul (fl.ofInt v) hr, fl.one⟩ ∧
          (cands.length ≤ 65536 → u = c.1 - (r : Int) ∧ v = c.2 - (r : Int)) := by
  refine ⟨_, _, _, _, suppress_eq cands r W H hb,
    NonMaximalSuppression_eq fl cands descs [] r W H wr hr hb (le_of_eq hd.symm), ?_, ?_⟩
  · rw [hits_suppress]
    simp [validIdxs]
  · intro k c hk
    rw [hits_suppress] at hk
    obtain ⟨-, -, -, h4, h5, h6⟩ := emitted_position fl wr hr cands r W H k c hk
    refine ⟨_, (cands.getD (indexAfter cands 0 (rawOf r c) 0) (0, 0)).1,
      (cands.getD (indexAfter cands 0 (rawOf r c) 0) (0, 0)).2, rfl, h4, ?_, ?_⟩
    · simp only [List.nil_append]
      rw [h5]
      rfl
    · intro hN
      rw [h6 hN]
      exact ⟨rfl, rfl⟩

/-- Instance of C8 on three candidates in a 16 x 16 grid with radius 2. -/
theorem C8_scaling_witness :
    (InBounds 16 16 [(1, 1), (2, 2), (6, 6)] ∧ [10, 11, 12].length = [(1, 1), (2, 2), (6, 6)].length) ∧
    ∃ g ix kps ds, suppress [(1, 1), (2, 2), (6, 6)] 2 16 16 = some (g, ix) ∧
      NonMaximalSuppression intOps [(1, 1), (2, 2), (6, 6)] [10, 11, 12] [] 2 16 16 3 5 =
        some (kps, ds) ∧
      kps.length = (hits g 2 16 16).length ∧
      ∀ (k : Nat) (c : Int × Int), (hits g 2 16 16)[k]? = some c →
        ∃ (idx : Nat) (u v : Int), idx = cellIndex ix 2 c ∧
          [((1 : Int), (1 : Int)), (2, 2), (6, 6)][idx]? = some (u, v) ∧
          kps[k]? = some ⟨intOps.mul (intOps.ofInt u) 3, intOps.mul (intOps.ofInt v) 5,
            intOps.one⟩ ∧
          ([((1 : Int), (1 : Int)), (2, 2), (6, 6)].length ≤ 65536 →
            u = c.1 - ((2 : Nat) : Int) ∧ v = c.2 - ((2 : Nat) : Int)) :=
  ⟨⟨by decide, by decide⟩,
    C8_scaling intOps [(1, 1), (2, 2), (6, 6)] [10, 11, 12] 2 16 16 3 5 (by decide) (by decide)⟩

/-- C9 (counterexample): with radius 0 in a 2 x 1 grid, candidate 0 at `(0,0)`
followed by 65536 candidates at `(1,0)` (descriptor row `i` is `i`): the function
returns the key point and the descriptor of candidate 0 twice, so the raw cells of
the successive output key points do not increase and an index is emitted twice. -/
theorem C9_counterexample :
    InBounds 2 1 ((0, 0) :: List.replicate 65536 (1, 0)) ∧
    NonMaximalSuppression intOps ((0, 0) :: List.replicate 65536 (1, 0)) (List.range 65537) []
      0 2 1 1 1 = some ([⟨0, 0, 1⟩, ⟨0, 0, 1⟩], [0, 0]) :=
  wrap_output 65535 (by decide)

/-- C9 (amended): for an in-bounds candidate list the raw cells from which the
successive output key points are emitted are strictly increasing by `u` first and
then `v`, so no cell is emitted twice; for at most 65536 candidates, no candidate
index is emitted twice and key point `k` is the rescaled raw coordinate of the
`k`-th of these cells, which is the cell of the emitted candidate. -/
theorem C9_scan_order {F D : Type} (fl : FloatOps F) (cands : List (Int × Int))
    (descs : List D) (r W H : Nat) (wr hr : F)
    (hb : InBounds W H cands) (hd : descs.length = cands.length) :
    ∃ g ix kps idxs ds, suppress cands r W H = some (g, ix) ∧
      thirdPass fl cands g ix [] r W H wr hr = some (kps, idxs) ∧
      NonMaximalSuppression fl cands descs [] r W H wr hr = some (kps, ds) ∧
      ((hits g r W H).map (rawOf r)).Pairwise scanLt ∧
      kps.length = (hits g r W H).length ∧ idxs.length = (hits g r W H).length ∧
      (cands.length ≤ 65536 → idxs.Nodup ∧
        ∀ (k : Nat) (c : Int × Int), (hits g r W H)[k]? = some c →
          ∃ i : Nat, idxs[k]? = some i ∧ cands[i]? = some (rawOf r c) ∧
            kps[k]? = some (emit fl wr hr (rawOf r c))) := by
  refine ⟨_, _, _, _, _, suppress_eq cands r W H hb, thirdPass_suppress fl cands [] r W H wr hr,
    NonMaximalSuppression_eq fl cands descs [] r W H wr hr hb (le_of_eq hd.symm), ?_, ?_, ?_, ?_⟩
  · rw [hits_suppress, List.pairwise_map]
    exact (emittedCells_pairwise cands r W H).imp (fun hab => (scanLt_rawOf r _ _).mpr hab)
  · rw [hits_suppress]
    simp [validIdxs]
  · rw [hits_suppress]
    simp [validIdxs]
  · intro hN
    refine ⟨validIdxs_nodup cands r W H hN, ?_⟩
    intro k c hk
    rw [hits_suppress] at hk
    obtain ⟨h1, -, -, -, h5, h6⟩ := emitted_position fl wr hr cands r W H k c hk
    have hc := List.mem_iff_getElem?.mpr ⟨k, hk⟩
    refine ⟨_, h1, (emitted_getD cands r W H c hc hN).2.1, ?_⟩
    simp only [List.nil_append]
    rw [h5, h6 hN]

/-- Instance of the amended C9 on three candidates in a 16 x 16 grid with radius 2. -/
theorem C9_scan_order_witness :
    (InBounds 16 16 [(6, 6), (2, 2), (1, 1)] ∧ [10, 11, 12].length = [(6, 6), (2, 2), (1, 1)].length) ∧
    ∃ g ix kps idxs ds, suppress [(6, 6), (2, 2), (1, 1)] 2 16 16 = some (g, ix) ∧
      thirdPass intOps [(6, 6), (2, 2), (1, 1)] g ix [] 2 16 16 3 5 = some (kps, idxs) ∧
      NonMaximalSuppression intOps [(6, 6), (2, 2), (1, 1)] [10, 11, 12] [] 2 16 16 3 5 =
        some (kps, ds) ∧
      ((hits g 2 16 16).map (rawOf 2)).Pairwise scanLt ∧
      kps.length = (hits g 2 16 16).length ∧ idxs.length = (hits g 2 16 16).length ∧
      ([((6 : Int), (6 : Int)), (2, 2), (1, 1)].length ≤ 65536 → idxs.Nodup ∧
        ∀ (k : Nat) (c : Int × Int), (hits g 2 16 16)[k]? = some c →
          ∃ i : Nat, idxs[k]? = some i ∧
            [((6 : Int), (6 : Int)), (2, 2), (1, 1)][i]? = some (rawOf 2 c) ∧
            kps[k]? = some (emit intOps 3 5 (rawOf 2 c))) :=
  ⟨⟨by decide, by decide⟩,
    C9_scan_order intOps [(6, 6), (2, 2), (1, 1)] [10, 11, 12] 2 16 16 3 5
      (by decide) (by decide)⟩

/-- C10 (counterexample): with radius 0 in a 2 x 2 grid, two candidates at the same
cell `(1,1)` give one key point, with the descriptor of the later candidate: not
every candidate survives. -/
theorem C10_counterexample :
    InBounds 2 2 [(1, 1), (1, 1)] ∧
    NonMaximalSuppression intOps [(1, 1), (1, 1)] [100, 101] [] 0 2 2 1 1 =
      some ([⟨1, 1, 1⟩], [101]) := by
  decide

/-- C10 (amended): with radius 0 and an in-bounds list of at most 65536 candidates,
nothing is suppressed between different cells: the emitted candidates are exactly
those with no later candidate at the same cell (one per occupied cell), each
rescaled and with its own descriptor, in grid-scan order of their cells; when no two
candidates share a cell the output is a rearrangement of all the input
candidates. -/
theorem C10_radius_zero {F D : Type} (fl : FloatOps F) (cands : List (Int × Int))
    (descs : List D) (W H : Nat) (wr hr : F)
    (hb : InBounds W H cands) (hd : descs.length = cands.length)
    (hN : cands.length ≤ 65536) :
    ∃ idxs kps ds, NonMaximalSuppression fl cands descs [] 0 W H wr hr = some (kps, ds) ∧
      Emits fl wr hr cands descs idxs kps ds ∧
      (∀ i : Nat, i ∈ idxs ↔ i < cands.length ∧ ∀ j : Nat, i < j → cands[j]? ≠ cands[i]?) ∧
      idxs.Pairwise (fun a b => scanLt (cands.getD a (0, 0)) (cands.getD b (0, 0))) ∧
      (cands.Nodup → idxs.Perm (List.range cands.length)) := by
  have hmemI : ∀ i : Nat, i ∈ validIdxs cands 0 W H ↔
      i < cands.length ∧ ∀ j : Nat, i < j → cands[j]? ≠ cands[i]? := by
    intro i
    constructor
    · intro hi
      refine ⟨validIdxs_lt cands 0 W H i hi, ?_⟩
      unfold validIdxs at hi
      obtain ⟨c, hc, rfl⟩ := List.mem_map.mp hi
      obtain ⟨hmem, h1, -⟩ := emitted_getD cands 0 W H c hc hN
      intro j hj
      rw [h1]
      exact (indexAfter_getElem? cands (rawOf 0 c) hmem hN).2 j hj
    · rintro ⟨hi, hlast⟩
      have hget : cands[i]? = some cands[i] := List.getElem?_eq_getElem hi
      have hmem : cands[i] ∈ cands := List.mem_iff_getElem?.mpr ⟨i, hget⟩
      have hin := hb _ hmem
      have hraw : rawOf 0 cands[i] = cands[i] := by
        unfold rawOf; simp
      have hc : cands[i] ∈ emittedCells cands 0 W H := by
        rw [mem_emittedCells, mem_scanCells, hraw, mem_keep_zero]
        refine ⟨?_, Or.inr hmem⟩
        push_cast
        omega
      obtain ⟨h1, h2⟩ := indexAfter_getElem? cands cands[i] hmem hN
      have hk : indexAfter cands 0 cands[i] 0 = i := by
        rcases Nat.lt_trichotomy (indexAfter cands 0 cands[i] 0) i with h | h | h
        · exact absurd hget (h2 i h)
        · exact h
        · exact absurd (h1.trans hget.symm) (hlast _ h)
      unfold validIdxs
      apply List.mem_map.mpr
      exact ⟨cands[i], hc, by rw [hraw, hk]⟩
  have hpw : (validIdxs cands 0 W H).Pairwise
      (fun a b => scanLt (cands.getD a (0, 0)) (cands.getD b (0, 0))) := by
    unfold validIdxs
    rw [List.pairwise_map]
    apply (emittedCells_pairwise cands 0 W H).imp_of_mem
    intro a b ha hb2 hab
    rw [(emitted_getD cands 0 W H a ha hN).2.2, (emitted_getD cands 0 W H b hb2 hN).2.2]
    exact (scanLt_rawOf 0 a b).mpr hab
  refine ⟨validIdxs cands 0 W H, _, _,
    NonMaximalSuppression_eq fl cands descs [] 0 W H wr hr hb (le_of_eq hd.symm),
    emits_validIdxs fl wr hr cands descs 0 W H (le_of_eq hd.symm), hmemI, hpw, ?_⟩
  intro hnd
  rw [List.perm_ext_iff_of_nodup (validIdxs_nodup cands 0 W H hN) (List.nodup_range _)]
  intro i
  rw [hmemI, List.mem_range]
  constructor
  · exact fun h => h.1
  · intro hi
    refine ⟨hi, ?_⟩
    intro j hj
    by_cases hjl : j < cands.length
    · exact fun h => (List.nodup_iff_getElem?_ne_getElem?.mp hnd) i j hj hjl h.symm
    · rw [List.getElem?_eq_none (by omega), List.getElem?_eq_getElem hi]
      exact fun h => Option.noConfusion h

/-- Instance of the amended C10 on three candidates in a 2 x 2 grid. -/
theorem C10_radius_zero_witness :
    (InBounds 2 2 [(1, 1), (0, 1), (1, 0)] ∧
      [10, 11, 12].length = [((1 : Int), (1 : Int)), (0, 1), (1, 0)].length ∧
      [((1 : Int), (1 : Int)), (0, 1), (1, 0)].length ≤ 65536) ∧
    ∃ idxs kps ds,
      NonMaximalSuppression intOps [(1, 1), (0, 1), (1, 0)] [10, 11, 12] [] 0 2 2 3 5 =
        some (kps, ds) ∧
      Emits intOps 3 5 [(1, 1), (0, 1), (1, 0)] [10, 11, 12] idxs kps ds ∧
      (∀ i : Nat, i ∈ idxs ↔ i < [((1 : Int), (1 : Int)), (0, 1), (1, 0)].length ∧
        ∀ j : Nat, i < j → [((1 : Int), (1 : Int)), (0, 1), (1, 0)][j]? ≠
          [((1 : Int), (1 : Int)), (0, 1), (1, 0)][i]?) ∧
      idxs.Pairwise (fun a b => scanLt ([((1 : Int), (1 : Int)), (0, 1), (1, 0)].getD a (0, 0))
        ([((1 : Int), (1 : Int)), (0, 1), (1, 0)].getD b (0, 0))) ∧
      ([((1 : Int), (1 : Int)), (0, 1), (1, 0)].Nodup →
        idxs.Perm (List.range [((1 : Int), (1 : Int)), (0, 1), (1, 0)].length)) :=
  ⟨⟨by decide, by decide, by decide⟩,
    C10_radius_zero intOps [(1, 1), (0, 1), (1, 0)] [10, 11, 12] 2 2 3 5
      (by decide) (by decide) (by decide)⟩

/-- C11 (counterexample): 65537 candidates at the one cell of a 1 x 1 grid, radius 0,
descriptor row `i` being `i`: the largest index at the cell is 65536, yet after the
first pass the index map holds 0 there and the output descriptor row is that of
candidate 0. -/
theorem C11_counterexample :
    InBounds 1 1 (List.replicate 65537 (0, 0)) ∧
    (List.replicate 65537 ((0 : Int), (0 : Int)))[65536]? = some (0, 0) ∧
    (∃ g ix, firstPass (List.replicate 65537 (0, 0)) 0 (Mat.zeros 1 1) (Mat.zeros 1 1) =
      some (g, ix) ∧ ix.data 0 0 = 0) ∧
    NonMaximalSuppression intOps (List.replicate 65537 (0, 0)) (List.range 65537) []
      0 1 1 1 1 = some ([⟨0, 0, 1⟩], [0]) :=
  same_cell_wrap 65536 (by decide)

/-- C11 (amended): when several candidates of an in-bounds list map to the cell `c`,
the later one wins: with `last` the largest index among them, after the first pass
the index map holds `last % 65536` at `c`, which is `last` itself for at most 65536
candidates, and if the cell is emitted the output descriptor row is the raw
descriptor at the stored index. -/
theorem C11_last_writer_wins {F D : Type} (fl : FloatOps F) (cands : List (Int × Int))
    (descs : List D) (r W H : Nat) (wr hr : F) (c : Int × Int)
    (hb : InBounds W H cands) (hd : descs.length = cands.length) (hc : c ∈ cands) :
    ∃ (last : Nat) (g0 ix g : Mat Nat) (kps : List (KeyPoint F)) (ds : List D),
      cands[last]? = some c ∧ (∀ j : Nat, last < j → cands[j]? ≠ some c) ∧
      firstPass cands 0 (Mat.zeros W H) (Mat.zeros W H) = some (g0, ix) ∧
      ix.data c.2 c.1 = last % 65536 ∧ last % 65536 < cands.length ∧
      (cands.length ≤ 65536 → ix.data c.2 c.1 = last) ∧
      suppress cands r W H = some (g, ix) ∧
      NonMaximalSuppression fl cands descs [] r W H wr hr = some (kps, ds) ∧
      ∀ k : Nat, (hits g r W H)[k]? = some (c.1 + (r : Int), c.2 + (r : Int)) →
        ds[k]? = descs[last % 65536]? := by
  obtain ⟨last, hl1, hl2, hl3, hl4⟩ := indexAfter_mem cands 0 c 0 hc
  rw [Nat.zero_add] at hl4
  have hraw : rawOf r (c.1 + (r : Int), c.2 + (r : Int)) = c := by
    obtain ⟨a, b⟩ := c
    unfold rawOf
    simp
  refine ⟨last, _, _, _, _, _, hl2, hl3,
    firstPass_eq cands 0 (Mat.zeros W H) (Mat.zeros W H)
      (fun p hp => by
        have := hb p hp
        simp only [Mat.zeros]
        omega) rfl rfl,
    hl4, lt_of_le_of_lt (Nat.mod_le last 65536) hl1, ?_, suppress_eq cands r W H hb,
    NonMaximalSuppression_eq fl cands descs [] r W H wr hr hb (le_of_eq hd.symm), ?_⟩
  · intro hN
    show indexAfter cands 0 (c.1, c.2) 0 = last
    rw [hl4]
    exact Nat.mod_eq_of_lt (by omega)
  · intro k hk
    rw [hits_suppress] at hk
    obtain ⟨h1, -, -, -, -, -⟩ := emitted_position fl wr hr cands r W H k _ hk
    rw [hraw, hl4] at h1
    exact (filterMap_getElem?_length descs (validIdxs cands r W H)
      (fun i hi => lt_of_lt_of_le (validIdxs_lt cands r W H i hi) (le_of_eq hd.symm))).2 k _ h1

/-- Instance of the amended C11: the cell `(1,1)` holds candidates 0 and 2 of
`[(1,1), (6,6), (1,1)]`, radius 2 in a 16 x 16 grid. -/
theorem C11_last_writer_wins_witness :
    (InBounds 16 16 [(1, 1), (6, 6), (1, 1)] ∧
      [10, 11, 12].length = [((1 : Int), (1 : Int)), (6, 6), (1, 1)].length ∧
      ((1 : Int), (1 : Int)) ∈ [((1 : Int), (1 : Int)), (6, 6), (1, 1)]) ∧
    ∃ (last : Nat) (g0 ix g : Mat Nat) (kps : List (KeyPoint Int)) (ds : List Nat),
      [((1 : Int), (1 : Int)), (6, 6), (1, 1)][last]? = some (1, 1) ∧
      (∀ j : Nat, last < j → [((1 : Int), (1 : Int)), (6, 6), (1, 1)][j]? ≠ some (1, 1)) ∧
      firstPass [(1, 1), (6, 6), (1, 1)] 0 (Mat.zeros 16 16) (Mat.zeros 16 16) = some (g0, ix) ∧
      ix.data ((1 : Int), (1 : Int)).2 ((1 : Int), (1 : Int)).1 = last % 65536 ∧
      last % 65536 < [((1 : Int), (1 : Int)), (6, 6), (1, 1)].length ∧
      ([((1 : Int), (1 : Int)), (6, 6), (1, 1)].length ≤ 65536 →
        ix.data ((1 : Int), (1 : Int)).2 ((1 : Int), (1 : Int)).1 = last) ∧
      suppress [(1, 1), (6, 6), (1, 1)] 2 16 16 = some (g, ix) ∧
      NonMaximalSuppression intOps [(1, 1), (6, 6), (1, 1)] [10, 11, 12] [] 2 16 16 3 5 =
        some (kps, ds) ∧
      ∀ k : Nat, (hits g 2 16 16)[k]? =
          some (((1 : Int), (1 : Int)).1 + ((2 : Nat) : Int),
            ((1 : Int), (1 : Int)).2 + ((2 : Nat) : Int)) →
        ds[k]? = [10, 11, 12][last % 65536]? :=
  ⟨⟨by decide, by decide, by decide⟩,
    C11_last_writer_wins intOps [(1, 1), (6, 6), (1, 1)] [10, 11, 12] 2 16 16 3 5 (1, 1)
      (by decide) (by decide) (by decide)⟩

/-- C12: for fixed candidates, radius, `W`, `H` and ratios, two runs with descriptor
arrays of length `N` either both fail (a candidate is out of bounds) or return the
same key point sequence, built from the same list `valid_idxs` of candidate indices
in the same order; only the descriptor rows copied for these indices differ. -/
theorem C12_descriptor_independence {F D : Type} (fl : FloatOps F)
    (cands : List (Int × Int)) (descs1 descs2 : List D) (r W H : Nat) (wr hr : F)
    (h1 : descs1.length = cands.length) (h2 : descs2.length = cands.length) :
    (NonMaximalSuppression fl cands descs1 [] r W H wr hr = none ∧
      NonMaximalSuppression fl cands descs2 [] r W H wr hr = none) ∨
    ∃ g ix kps idxs ds1 ds2, suppress cands r W H = some (g, ix) ∧
      thirdPass fl cands g ix [] r W H wr hr = some (kps, idxs) ∧
      NonMaximalSuppression fl cands descs1 [] r W H wr hr = some (kps, ds1) ∧
      NonMaximalSuppression fl cands descs2 [] r W H wr hr = some (kps, ds2) ∧
      Emits fl wr hr cands descs1 idxs kps ds1 ∧ Emits fl wr hr cands descs2 idxs kps ds2 := by
  by_cases hb : InBounds W H cands
  · right
    refine ⟨_, _, _, _, _, _, suppress_eq cands r W H hb,
      thirdPass_suppress fl cands [] r W H wr hr,
      NonMaximalSuppression_eq fl cands descs1 [] r W H wr hr hb (le_of_eq h1.symm),
      NonMaximalSuppression_eq fl cands descs2 [] r W H wr hr hb (le_of_eq h2.symm), ?_, ?_⟩
    · simp only [List.nil_append]
      exact emits_validIdxs fl wr hr cands descs1 r W H (le_of_eq h1.symm)
    · simp only [List.nil_append]
      exact emits_validIdxs fl wr hr cands descs2 r W H (le_of_eq h2.symm)
  · left
    exact ⟨NonMaximalSuppression_none fl cands descs1 [] r W H wr hr hb,
      NonMaximalSuppression_none fl cands descs2 [] r W H wr hr hb⟩

/-- Instance of C12 on three candidates with two descriptor arrays. -/
theorem C12_descriptor_independence_witness :
    ([10, 11, 12].length = [((1 : Int), (1 : Int)), (2, 2), (6, 6)].length ∧
      [20, 21, 22].length = [((1 : Int), (1 : Int)), (2, 2), (6, 6)].length) ∧
    ((NonMaximalSuppression intOps [(1, 1), (2, 2), (6, 6)] [10, 11, 12] [] 2 16 16 3 5 = none ∧
      NonMaximalSuppression intOps [(1, 1), (2, 2), (6, 6)] [20, 21, 22] [] 2 16 16 3 5 = none) ∨
    ∃ g ix kps idxs ds1 ds2, suppress [(1, 1), (2, 2), (6, 6)] 2 16 16 = some (g, ix) ∧
      thirdPass intOps [(1, 1), (2, 2), (6, 6)] g ix [] 2 16 16 3 5 = some (kps, idxs) ∧
      NonMaximalSuppression intOps [(1, 1), (2, 2), (6, 6)] [10, 11, 12] [] 2 16 16 3 5 =
        some (kps, ds1) ∧
      NonMaximalSuppression intOps [(1, 1), (2, 2), (6, 6)] [20, 21, 22] [] 2 16 16 3 5 =
        some (kps, ds2) ∧
      Emits intOps 3 5 [(1, 1), (2, 2), (6, 6)] [10, 11, 12] idxs kps ds1 ∧
      Emits intOps 3 5 [(1, 1), (2, 2), (6, 6)] [20, 21, 22] idxs kps ds2) :=
  ⟨⟨by decide, by decide⟩,
    C12_descriptor_independence intOps [(1, 1), (2, 2), (6, 6)] [10, 11, 12] [20, 21, 22]
      2 16 16 3 5 (by decide) (by decide)⟩

/-- C13 (counterexample): for the single candidate `(9, 9)` in an 8 x 8 grid the
first loop performs the grid write at `(9, 9)` as its first step, with no test
before it; this write lies outside the matrix, and the call yields no result. -/
theorem C13_counterexample :
    ¬ InBounds 8 8 [(9, 9)] ∧
    firstPass [(9, 9)] 0 (Mat.zeros 8 8) (Mat.zeros 8 8) =
      ((Mat.zeros 8 8).atWrite 9 9 1).bind (fun g =>
        ((Mat.zeros 8 8).atWrite 9 9 (0 % 65536)).bind fun ix => firstPass [] (0 + 1) g ix) ∧
    (Mat.zeros 8 8).atWrite 9 9 1 = none ∧
    NonMaximalSuppression intOps [(9, 9)] [100] [] 2 8 8 1 1 = none := by
  refine ⟨by decide, rfl, rfl, by decide⟩

/-- C13 (amended): there is no guard. When the candidates before `c` are in bounds
and `c` is not, the first loop runs over them and then performs the grid write at
the raw coordinate of `c`, which lies outside the `H x W` matrix (undefined behaviour
in the source); in the embedding the call then yields no result, whatever follows
`c`. -/
theorem C13_unguarded_grid_write {F D : Type} (fl : FloatOps F)
    (pre post : List (Int × Int)) (c : Int × Int) (descs : List D) (r W H : Nat) (wr hr : F)
    (hpre : InBounds W H pre)
    (hc : ¬ (0 ≤ c.1 ∧ c.1 < (W : Int) ∧ 0 ≤ c.2 ∧ c.2 < (H : Int))) :
    ∃ g ix, firstPass pre 0 (Mat.zeros W H) (Mat.zeros W H) = some (g, ix) ∧
      g.rows = H ∧ g.cols = W ∧ g.atWrite c.2 c.1 1 = none ∧
      firstPass (pre ++ c :: post) 0 (Mat.zeros W H) (Mat.zeros W H) = none ∧
      NonMaximalSuppression fl (pre ++ c :: post) descs [] r W H wr hr = none := by
  have hnb : ¬ InBounds W H (pre ++ c :: post) := by
    intro h
    exact hc (h c (List.mem_append_right _ (List.mem_cons_self _ _)))
  refine ⟨_, _, firstPass_eq pre 0 (Mat.zeros W H) (Mat.zeros W H)
      (fun p hp => by
        have := hpre p hp
        simp only [Mat.zeros]
        omega) rfl rfl, rfl, rfl, ?_,
    firstPass_none W H _ 0 _ _ rfl rfl hnb,
    NonMaximalSuppression_none fl _ descs [] r W H wr hr hnb⟩
  unfold Mat.atWrite
  rw [if_neg]
  simp only [Mat.zeros]
  intro h
  exact hc ⟨h.2.2.1, h.2.2.2, h.1, h.2.1⟩

/-- Instance of the amended C13: `[(1,1), (9,9), (2,2)]` in an 8 x 8 grid. -/
theorem C13_unguarded_grid_write_witness :
    (InBounds 8 8 [(1, 1)] ∧
      ¬ (0 ≤ ((9 : Int), (9 : Int)).1 ∧ ((9 : Int), (9 : Int)).1 < ((8 : Nat) : Int) ∧
        0 ≤ ((9 : Int), (9 : Int)).2 ∧ ((9 : Int), (9 : Int)).2 < ((8 : Nat) : Int))) ∧
    ∃ g ix, firstPass [(1, 1)] 0 (Mat.zeros 8 8) (Mat.zeros 8 8) = some (g, ix) ∧
      g.rows = 8 ∧ g.cols = 8 ∧ g.atWrite ((9 : Int), (9 : Int)).2 ((9 : Int), (9 : Int)).1 1 = none ∧
      firstPass ([(1, 1)] ++ (9, 9) :: [(2, 2)]) 0 (Mat.zeros 8 8) (Mat.zeros 8 8) = none ∧
      NonMaximalSuppression intOps ([(1, 1)] ++ (9, 9) :: [(2, 2)]) [10, 11, 12] [] 2 8 8 3 5 =
        none :=
  ⟨⟨by decide, by decide⟩,
    C13_unguarded_grid_write intOps [(1, 1)] [(2, 2)] (9, 9) [10, 11, 12] 2 8 8 3 5
      (by decide) (by decide)⟩

/-- C14 (counterexample): in an 8 x 8 grid with radius 2, one candidate with two
descriptor rows, and two candidates with one descriptor row, both give an output:
the counts disagree and nothing is rejected. -/
theorem C14_counterexample :
    ([100, 101].length ≠ [((1 : Int), (1 : Int))].length ∧
      NonMaximalSuppression intOps [(1, 1)] [100, 101] [] 2 8 8 1 1 =
        some ([⟨1, 1, 1⟩], [100])) ∧
    ([100].length ≠ [((1 : Int), (1 : Int)), (2, 2)].length ∧
      NonMaximalSuppression intOps [(1, 1), (2, 2)] [100] [] 2 8 8 1 1 =
        some ([⟨1, 1, 1⟩], [100])) := by
  decide

/-- C14 (amended): the two counts are never compared. For an in-bounds candidate list
the call returns the key points and one descriptor row per selected index whenever
every index in `valid_idxs` is a row of `desc_raw`, in particular whenever there are
at least `N` rows (rows beyond the selected ones are not read); it yields no result
(a read outside `desc_raw`) exactly when a selected index is not a row. -/
theorem C14_counts_not_compared {F D : Type} (fl : FloatOps F) (cands : List (Int × Int))
    (descs : List D) (r W H : Nat) (wr hr : F) (hb : InBounds W H cands) :
    ∃ g ix kps idxs, suppress cands r W H = some (g, ix) ∧
      thirdPass fl cands g ix [] r W H wr hr = some (kps, idxs) ∧
      ((∀ i ∈ idxs, i < descs.length) →
        ∃ ds, NonMaximalSuppression fl cands descs [] r W H wr hr = some (kps, ds) ∧
          ds.length = idxs.length ∧
          ∀ k i : Nat, idxs[k]? = some i → ds[k]? = descs[i]?) ∧
      ((∃ i ∈ idxs, descs.length ≤ i) →
        NonMaximalSuppression fl cands descs [] r W H wr hr = none) ∧
      (cands.length ≤ descs.length → ∀ i ∈ idxs, i < descs.length) := by
  refine ⟨_, _, _, _, suppress_eq cands r W H hb, thirdPass_suppress fl cands [] r W H wr hr,
    ?_, ?_, ?_⟩
  · intro hall
    refine ⟨(validIdxs cands r W H).filterMap (fun i => descs[i]?), ?_,
      (filterMap_getElem?_length descs _ hall).1, (filterMap_getElem?_length descs _ hall).2⟩
    rw [NonMaximalSuppression_eq_copy fl cands descs [] r W H wr hr hb,
      copyDescriptors_eq descs _ hall]
    rfl
  · intro hex
    rw [NonMaximalSuppression_eq_copy fl cands descs [] r W H wr hr hb,
      copyDescriptors_none descs _ hex]
    rfl
  · intro hle i hi
    exact lt_of_lt_of_le (validIdxs_lt cands r W H i hi) hle

/-- Instance of the amended C14: one candidate and two descriptor rows. -/
theorem C14_counts_not_compared_witness :
    InBounds 8 8 [(1, 1)] ∧
    ∃ g ix kps idxs, suppress [(1, 1)] 2 8 8 = some (g, ix) ∧
      thirdPass intOps [(1, 1)] g ix [] 2 8 8 3 5 = some (kps, idxs) ∧
      ((∀ i ∈ idxs, i < [100, 101].length) →
        ∃ ds, NonMaximalSuppression intOps [(1, 1)] [100, 101] [] 2 8 8 3 5 = some (kps, ds) ∧
          ds.length = idxs.length ∧
          ∀ k i : Nat, idxs[k]? = some i → ds[k]? = [100, 101][i]?) ∧
      ((∃ i ∈ idxs, [100, 101].length ≤ i) →
        NonMaximalSuppression intOps [(1, 1)] [100, 101] [] 2 8 8 3 5 = none) ∧
      ([((1 : Int), (1 : Int))].length ≤ [100, 101].length → ∀ i ∈ idxs, i < [100, 101].length) :=
  ⟨by decide, C14_counts_not_compared intOps [(1, 1)] [100, 101] 2 8 8 3 5 (by decide)⟩

/-- C15: for an in-bounds candidate list with as many descriptor rows as candidates,
every pass runs to its end without an access outside a matrix: every neighbourhood
write at `(v + j, u + k)` with `|j|, |k| ≤ r` lies inside the padded grid of
`(H + 2r) x (W + 2r)` cells, every index-map read of the third pass lies inside the
`H x W` map, and every index read from the map is a row of the candidate and of the
descriptor array. -/
theorem C15_no_out_of_bounds_access {F D : Type} (fl : FloatOps F) (cands : List (Int × Int))
    (descs : List D) (r W H : Nat) (wr hr : F)
    (hb : InBounds W H cands) (hd : descs.length = cands.length) :
    ∃ g0 ix g kps idxs ds,
      firstPass cands 0 (Mat.zeros W H) (Mat.zeros W H) = some (g0, ix) ∧
      secondPass r cands (copyMakeBorder g0 r r r r 0) = some g ∧
      thirdPass fl cands g ix [] r W H wr hr = some (kps, idxs) ∧
      copyDescriptors descs idxs = some ds ∧
      NonMaximalSuppression fl cands descs [] r W H wr hr = some (kps, ds) ∧
      (copyMakeBorder g0 r r r r 0).rows = H + 2 * r ∧
      (copyMakeBorder g0 r r r r 0).cols = W + 2 * r ∧
      (∀ p ∈ cands, ∀ j k : Int, -(r : Int) ≤ j → j ≤ (r : Int) → -(r : Int) ≤ k → k ≤ (r : Int) →
        0 ≤ p.2 + (r : Int) + j ∧
        p.2 + (r : Int) + j < ((copyMakeBorder g0 r r r r 0).rows : Int) ∧
        0 ≤ p.1 + (r : Int) + k ∧
        p.1 + (r : Int) + k < ((copyMakeBorder g0 r r r r 0).cols : Int)) ∧
      ix.rows = H ∧ ix.cols = W ∧
      (∀ c ∈ scanCells r W H,
        0 ≤ c.2 - (r : Int) ∧ c.2 - (r : Int) < (ix.rows : Int) ∧
        0 ≤ c.1 - (r : Int) ∧ c.1 - (r : Int) < (ix.cols : Int)) ∧
      (∀ i ∈ idxs, i < cands.length ∧ i < descs.length) := by
  have hfirst := firstPass_eq cands 0 (Mat.zeros W H) (Mat.zeros W H)
    (fun p hp => by
      have := hb p hp
      simp only [Mat.zeros]
      omega) rfl rfl
  have hlt : ∀ i ∈ validIdxs cands r W H, i < descs.length :=
    fun i hi => lt_of_lt_of_le (validIdxs_lt cands r W H i hi) (le_of_eq hd.symm)
  refine ⟨_, _, _, _, _, _, hfirst,
    secondPass_eq r W H cands [] _ hb rfl rfl (padded_data cands r W H hb),
    thirdPass_suppress fl cands [] r W H wr hr,
    copyDescriptors_eq descs _ hlt,
    NonMaximalSuppression_eq fl cands descs [] r W H wr hr hb (le_of_eq hd.symm),
    ?_, ?_, ?_, rfl, rfl, ?_, ?_⟩
  · simp only [copyMakeBorder, Mat.zeros]; omega
  · simp only [copyMakeBorder, Mat.zeros]; omega
  · intro p hp j k hj1 hj2 hk1 hk2
    have := hb p hp
    simp only [copyMakeBorder, Mat.zeros]
    push_cast
    omega
  · intro c hc
    rw [mem_scanCells] at hc
    simp only [Mat.zeros]
    omega
  · intro i hi
    exact ⟨validIdxs_lt cands r W H i hi, hlt i hi⟩

/-- Instance of C15 on three candidates in a 16 x 16 grid with radius 2. -/
theorem C15_no_out_of_bounds_access_witness :
    (InBounds 16 16 [(1, 1), (2, 2), (6, 6)] ∧
      [10, 11, 12].length = [((1 : Int), (1 : Int)), (2, 2), (6, 6)].length) ∧
    ∃ g0 ix g kps idxs ds,
      firstPass [(1, 1), (2, 2), (6, 6)] 0 (Mat.zeros 16 16) (Mat.zeros 16 16) = some (g0, ix) ∧
      secondPass 2 [(1, 1), (2, 2), (6, 6)] (copyMakeBorder g0 2 2 2 2 0) = some g ∧
      thirdPass intOps [(1, 1), (2, 2), (6, 6)] g ix [] 2 16 16 3 5 = some (kps, idxs) ∧
      copyDescriptors [10, 11, 12] idxs = some ds ∧
      NonMaximalSuppression intOps [(1, 1), (2, 2), (6, 6)] [10, 11, 12] [] 2 16 16 3 5 =
        some (kps, ds) ∧
      (copyMakeBorder g0 2 2 2 2 0).rows = 16 + 2 * 2 ∧
      (copyMakeBorder g0 2 2 2 2 0).cols = 16 + 2 * 2 ∧
      (∀ p ∈ [((1 : Int), (1 : Int)), (2, 2), (6, 6)], ∀ j k : Int,
        -((2 : Nat) : Int) ≤ j → j ≤ ((2 : Nat) : Int) →
        -((2 : Nat) : Int) ≤ k → k ≤ ((2 : Nat) : Int) →
        0 ≤ p.2 + ((2 : Nat) : Int) + j ∧
        p.2 + ((2 : Nat) : Int) + j < ((copyMakeBorder g0 2 2 2 2 0).rows : Int) ∧
        0 ≤ p.1 + ((2 : Nat) : Int) + k ∧
        p.1 + ((2 : Nat) : Int) + k < ((copyMakeBorder g0 2 2 2 2 0).cols : Int)) ∧
      ix.rows = 16 ∧ ix.cols = 16 ∧
      (∀ c ∈ scanCells 2 16 16,
        0 ≤ c.2 - ((2 : Nat) : Int) ∧ c.2 - ((2 : Nat) : Int) < (ix.rows : Int) ∧
        0 ≤ c.1 - ((2 : Nat) : Int) ∧ c.1 - ((2 : Nat) : Int) < (ix.cols : Int)) ∧
      (∀ i ∈ idxs, i < [((1 : Int), (1 : Int)), (2, 2), (6, 6)].length ∧
        i < [10, 11, 12].length) :=
  ⟨⟨by decide, by decide⟩,
    C15_no_out_of_bounds_access intOps [(1, 1), (2, 2), (6, 6)] [10, 11, 12] 2 16 16 3 5
      (by decide) (by decide)⟩

/-- C16: for an in-bounds candidate list, the cells marked survivor (value 2) after
the second pass are exactly the cells kept by the naive greedy pairwise selection
over the candidates in input order. -/
theorem C16_grid_pass_refines_greedy (cands : List (Int × Int)) (r W H : Nat)
    (hb : InBounds W H cands) :
    ∃ g ix, suppress cands r W H = some (g, ix) ∧
      ∀ c : Int × Int, g.data (c.2 + (r : Int)) (c.1 + (r : Int)) = 2 ↔
        c ∈ naivePairwiseSelect r cands := by
  refine ⟨_, _, suppress_eq cands r W H hb, ?_⟩
  intro c
  obtain ⟨a, b⟩ := c
  simp only
  rw [cellState_nil_eq_two, naivePairwiseSelect_eq_keep]
  have e : (a + (r : Int) - (r : Int), b + (r : Int) - (r : Int)) = (a, b) := by simp
  rw [e]

/-- Instance of C16 on three candidates in a 16 x 16 grid with radius 2. -/
theorem C16_grid_pass_refines_greedy_witness :
    InBounds 16 16 [(1, 1), (2, 2), (6, 6)] ∧
    ∃ g ix, suppress [(1, 1), (2, 2), (6, 6)] 2 16 16 = some (g, ix) ∧
      ∀ c : Int × Int, g.data (c.2 + ((2 : Nat) : Int)) (c.1 + ((2 : Nat) : Int)) = 2 ↔
        c ∈ naivePairwiseSelect 2 [(1, 1), (2, 2), (6, 6)] :=
  ⟨by decide, C16_grid_pass_refines_greedy [(1, 1), (2, 2), (6, 6)] 2 16 16 (by decide)⟩

/-- C17: split an in-bounds candidate list as `l1 ++ (l2 ++ l3)` and let `g1`, `g2`
be the padded grid when the second pass has visited `l1`, then `l2` as well. A cell
that is survivor (2) in `g1` is still survivor in `g2`, a cell that is empty (0) in
`g1` is still empty in `g2`; and at the end of the pass no cell is occupied (1), so
every candidate's cell is survivor or empty. -/
theorem C17_second_pass_monotone (l1 l2 l3 : List (Int × Int)) (r W H : Nat)
    (hb : InBounds W H (l1 ++ (l2 ++ l3))) :
    ∃ g0 ix g1 g2 gEnd,
      firstPass (l1 ++ (l2 ++ l3)) 0 (Mat.zeros W H) (Mat.zeros W H) = some (g0, ix) ∧
      secondPass r l1 (copyMakeBorder g0 r r r r 0) = some g1 ∧
      secondPass r l2 g1 = some g2 ∧
      secondPass r l3 g2 = some gEnd ∧
      suppress (l1 ++ (l2 ++ l3)) r W H = some (gEnd, ix) ∧
      (∀ row col : Int, g1.data row col = 2 → g2.data row col = 2) ∧
      (∀ row col : Int, g1.data row col = 0 → g2.data row col = 0) ∧
      (∀ row col : Int, gEnd.data row col ≠ 1) ∧
      (∀ c ∈ l1 ++ (l2 ++ l3),
        gEnd.data (c.2 + (r : Int)) (c.1 + (r : Int)) = 2 ∨
        gEnd.data (c.2 + (r : Int)) (c.1 + (r : Int)) = 0) := by
  have hb1 : InBounds W H l1 := fun p hp => hb p (List.mem_append_left _ hp)
  have hb2 : InBounds W H l2 :=
    fun p hp => hb p (List.mem_append_right _ (List.mem_append_left _ hp))
  have hb3 : InBounds W H l3 :=
    fun p hp => hb p (List.mem_append_right _ (List.mem_append_right _ hp))
  have hfirst := firstPass_eq (l1 ++ (l2 ++ l3)) 0 (Mat.zeros W H) (Mat.zeros W H)
    (fun p hp => by
      have := hb p hp
      simp only [Mat.zeros]
      omega) rfl rfl
  have hend : ∀ row col : Int,
      cellState r (keep r l3 (keep r l2 (keep r l1 []))) [] row col ≠ 1 := by
    intro row col h1
    exact absurd (cellState_eq_one h1).2.1 (List.not_mem_nil _)
  refine ⟨_, _, _, _, _, hfirst,
    secondPass_prefix_eq r W H (l2 ++ l3) l1 [] _ hb1 rfl rfl (padded_data _ r W H hb),
    secondPass_prefix_eq r W H l3 l2 (keep r l1 []) _ hb2 rfl rfl rfl,
    secondPass_eq r W H l3 (keep r l2 (keep r l1 [])) _ hb3 rfl rfl rfl, ?_, ?_, ?_, hend, ?_⟩
  · rw [suppress_eq _ r W H hb, keep_append, keep_append]
    rfl
  · intro row col h2
    simp only at h2 ⊢
    rw [cellState_eq_two] at h2 ⊢
    exact kept_subset_keep r l2 _ _ h2
  · intro row col h0
    simp only at h0 ⊢
    rw [cellState_eq_zero] at h0 ⊢
    obtain ⟨hk1, hn1⟩ := h0
    have hk2 : (col - (r : Int), row - (r : Int)) ∉ keep r l2 (keep r l1 []) := by
      intro hk2
      obtain ⟨hm, hno⟩ := keep_new r l2 _ _ hk2 hk1
      exact hn1 ⟨List.mem_append_left _ hm, hno⟩
    refine ⟨hk2, ?_⟩
    rintro ⟨hm, hno⟩
    exact hn1 ⟨List.mem_append_right _ hm,
      fun k hk => hno k (kept_subset_keep r l2 _ k hk)⟩
  · intro c _
    simp only
    by_cases hk : (c.1 + (r : Int) - (r : Int), c.2 + (r : Int) - (r : Int)) ∈
        keep r l3 (keep r l2 (keep r l1 []))
    · exact Or.inl ((cellState_eq_two r _ _ _ _).mpr hk)
    · refine Or.inr ((cellState_eq_zero r _ _ _ _).mpr ⟨hk, ?_⟩)
      exact fun hh => absurd hh.1 (List.not_mem_nil _)

/-- Instance of C17: `[(1,1)]`, then `[(2,2)]`, then `[(6,6)]`, radius 2 in a 16 x 16
grid. -/
theorem C17_second_pass_monotone_witness :
    InBounds 16 16 ([(1, 1)] ++ ([(2, 2)] ++ [(6, 6)])) ∧
    ∃ g0 ix g1 g2 gEnd,
      firstPass ([(1, 1)] ++ ([(2, 2)] ++ [(6, 6)])) 0 (Mat.zeros 16 16) (Mat.zeros 16 16) =
        some (g0, ix) ∧
      secondPass 2 [(1, 1)] (copyMakeBorder g0 2 2 2 2 0) = some g1 ∧
      secondPass 2 [(2, 2)] g1 = some g2 ∧
      secondPass 2 [(6, 6)] g2 = some gEnd ∧
      suppress ([(1, 1)] ++ ([(2, 2)] ++ [(6, 6)])) 2 16 16 = some (gEnd, ix) ∧
      (∀ row col : Int, g1.data row col = 2 → g2.data row col = 2) ∧
      (∀ row col : Int, g1.data row col = 0 → g2.data row col = 0) ∧
      (∀ row col : Int, gEnd.data row col ≠ 1) ∧
      (∀ c ∈ [((1 : Int), (1 : Int))] ++ ([(2, 2)] ++ [(6, 6)]),
        gEnd.data (c.2 + ((2 : Nat) : Int)) (c.1 + ((2 : Nat) : Int)) = 2 ∨
        gEnd.data (c.2 + ((2 : Nat) : Int)) (c.1 + ((2 : Nat) : Int)) = 0) :=
  ⟨by decide, C17_second_pass_monotone [(1, 1)] [(2, 2)] [(6, 6)] 2 16 16 (by decide)⟩

/-- C18: for an in-bounds candidate list the key points are emitted, one each and in
the order of the visit, from exactly the cells holding 2 (survivor) whose raw
position satisfies `0 ≤ u < W - 2r` and `0 ≤ v < H - 2r`; a survivor elsewhere is
not emitted, and when `W ≤ 2r` or `H ≤ 2r` both outputs are empty, for this and for
every other input on which the call returns. -/
theorem C18_emitted_region {F D : Type} (fl : FloatOps F) (cands : List (Int × Int))
    (descs : List D) (r W H : Nat) (wr hr : F)
    (hb : InBounds W H cands) (hd : descs.length = cands.length) :
    ∃ g ix kps ds, suppress cands r W H = some (g, ix) ∧
      NonMaximalSuppression fl cands descs [] r W H wr hr = some (kps, ds) ∧
      kps = (hits g r W H).map
        (fun c => emit fl wr hr (cands.getD (cellIndex ix r c) (0, 0))) ∧
      ds.length = (hits g r W H).length ∧
      (hits g r W H).Nodup ∧
      (∀ u v : Int, (u + (r : Int), v + (r : Int)) ∈ hits g r W H ↔
        g.data (v + (r : Int)) (u + (r : Int)) = 2 ∧
        0 ≤ u ∧ u < (W : Int) - 2 * (r : Int) ∧ 0 ≤ v ∧ v < (H : Int) - 2 * (r : Int)) ∧
      (∀ c ∈ hits g r W H, ∃ u v : Int, c = (u + (r : Int), v + (r : Int))) ∧
      ((W : Int) ≤ 2 * (r : Int) ∨ (H : Int) ≤ 2 * (r : Int) → kps = [] ∧ ds = []) ∧
      ((W : Int) ≤ 2 * (r : Int) ∨ (H : Int) ≤ 2 * (r : Int) →
        ∀ (cands1 : List (Int × Int)) (descs1 : List D) (out : List (KeyPoint F) × List D),
          NonMaximalSuppression fl cands1 descs1 [] r W H wr hr = some out → out = ([], [])) := by
  obtain ⟨-, h2, -⟩ := emits_validIdxs fl wr hr cands descs r W H (le_of_eq hd.symm)
  refine ⟨_, _, _, _, suppress_eq cands r W H hb,
    NonMaximalSuppression_eq fl cands descs [] r W H wr hr hb (le_of_eq hd.symm),
    ?_, ?_, ?_, ?_, ?_, ?_, ?_⟩
  · rw [hits_suppress]
    simp only [List.nil_append, validIdxs, List.map_map]
    rfl
  · rw [hits_suppress, h2]
    simp [validIdxs]
  · rw [hits_suppress]
    exact emittedCells_nodup cands r W H
  · intro u v
    unfold hits
    rw [List.mem_filter, mem_scanCells]
    simp only [decide_eq_true_eq]
    constructor
    · rintro ⟨hs, hg⟩
      exact ⟨hg, by omega, by omega, by omega, by omega⟩
    · rintro ⟨hg, h1, h3, h4, h5⟩
      exact ⟨⟨by omega, by omega, by omega, by omega⟩, hg⟩
  · intro c _
    exact ⟨c.1 - (r : Int), c.2 - (r : Int), by
      obtain ⟨a, b⟩ := c
      simp⟩
  · intro hs
    rw [validIdxs_of_small cands r W H hs]
    exact ⟨rfl, rfl⟩
  · intro hs cands1 descs1 out hout
    by_cases hb1 : InBounds W H cands1
    · rw [NonMaximalSuppression_eq_copy fl cands1 descs1 [] r W H wr hr hb1,
        validIdxs_of_small cands1 r W H hs] at hout
      exact (Option.some.inj hout).symm
    · rw [NonMaximalSuppression_none fl cands1 descs1 [] r W H wr hr hb1] at hout
      exact Option.noConfusion hout

/-- Instance of C18 on three candidates in an 8 x 8 grid with radius 2. -/
theorem C18_emitted_region_witness :
    (InBounds 8 8 [(1, 1), (2, 2), (6, 6)] ∧
      [10, 11, 12].length = [((1 : Int), (1 : Int)), (2, 2), (6, 6)].length) ∧
    ∃ g ix kps ds, suppress [(1, 1), (2, 2), (6, 6)] 2 8 8 = some (g, ix) ∧
      NonMaximalSuppression intOps [(1, 1), (2, 2), (6, 6)] [10, 11, 12] [] 2 8 8 3 5 =
        some (kps, ds) ∧
      kps = (hits g 2 8 8).map
        (fun c => emit intOps 3 5
          ([((1 : Int), (1 : Int)), (2, 2), (6, 6)].getD (cellIndex ix 2 c) (0, 0))) ∧
      ds.length = (hits g 2 8 8).length ∧
      (hits g 2 8 8).Nodup ∧
      (∀ u v : Int, (u + ((2 : Nat) : Int), v + ((2 : Nat) : Int)) ∈ hits g 2 8 8 ↔
        g.data (v + ((2 : Nat) : Int)) (u + ((2 : Nat) : Int)) = 2 ∧
        0 ≤ u ∧ u < ((8 : Nat) : Int) - 2 * ((2 : Nat) : Int) ∧
        0 ≤ v ∧ v < ((8 : Nat) : Int) - 2 * ((2 : Nat) : Int)) ∧
      (∀ c ∈ hits g 2 8 8, ∃ u v : Int, c = (u + ((2 : Nat) : Int), v + ((2 : Nat) : Int))) ∧
      (((8 : Nat) : Int) ≤ 2 * ((2 : Nat) : Int) ∨ ((8 : Nat) : Int) ≤ 2 * ((2 : Nat) : Int) →
        kps = [] ∧ ds = []) ∧
      (((8 : Nat) : Int) ≤ 2 * ((2 : Nat) : Int) ∨ ((8 : Nat) : Int) ≤ 2 * ((2 : Nat) : Int) →
        ∀ (cands1 : List (Int × Int)) (descs1 : List Nat) (out : List (KeyPoint Int) × List Nat),
          NonMaximalSuppression intOps cands1 descs1 [] 2 8 8 3 5 = some out → out = ([], [])) :=
  ⟨⟨by decide, by decide⟩,
    C18_emitted_region intOps [(1, 1), (2, 2), (6, 6)] [10, 11, 12] 2 8 8 3 5
      (by decide) (by decide)⟩

/-- C19: the index map keeps each candidate index modulo `2^16`. For an in-bounds
candidate list, right after candidate `i` is written the map holds `i % 65536` at its
cell; for an emitted cell, with `last` the largest index of a candidate at that cell,
the index read back is `last % 65536`, and the key point and descriptor row emitted
are those of the candidate with that index. For at most 65536 candidates this is
`last`, a candidate located at the cell; for `last ≥ 65536` it is a smaller index,
another candidate. -/
theorem C19_index_map_sixteen_bits {F D : Type} (fl : FloatOps F) (cands : List (Int × Int))
    (descs : List D) (r W H : Nat) (wr hr : F)
    (hb : InBounds W H cands) (hd : descs.length = cands.length) :
    ∃ g ix kps idxs ds, suppress cands r W H = some (g, ix) ∧
      thirdPass fl cands g ix [] r W H wr hr = some (kps, idxs) ∧
      NonMaximalSuppression fl cands descs [] r W H wr hr = some (kps, ds) ∧
      (∀ (i : Nat) (p : Int × Int), cands[i]? = some p →
        ∃ g1 ix1, firstPass (cands.take (i + 1)) 0 (Mat.zeros W H) (Mat.zeros W H) =
            some (g1, ix1) ∧
          ix1.data p.2 p.1 = i % 65536) ∧
      (∀ (k : Nat) (c : Int × Int), (hits g r W H)[k]? = some c →
        ∃ last : Nat, cands[last]? = some (rawOf r c) ∧
          (∀ j : Nat, last < j → cands[j]? ≠ some (rawOf r c)) ∧
          cellIndex ix r c = last % 65536 ∧ idxs[k]? = some (last % 65536) ∧
          last % 65536 < cands.length ∧
          kps[k]? = (cands[last % 65536]?).map (emit fl wr hr) ∧
          ds[k]? = descs[last % 65536]? ∧
          (cands.length ≤ 65536 → last % 65536 = last) ∧
          (65536 ≤ last → last % 65536 < last)) := by
  refine ⟨_, _, _, _, _, suppress_eq cands r W H hb, thirdPass_suppress fl cands [] r W H wr hr,
    NonMaximalSuppression_eq fl cands descs [] r W H wr hr hb (le_of_eq hd.symm), ?_, ?_⟩
  · intro i p hp
    have hi : i < cands.length := (List.getElem?_eq_some.mp hp).1
    have htake : cands.take (i + 1) = cands.take i ++ [p] := by
      rw [List.take_succ, hp]
      rfl
    have hbt : InBounds W H (cands.take (i + 1)) :=
      fun q hq => hb q (List.mem_of_mem_take hq)
    refine ⟨_, _, firstPass_eq (cands.take (i + 1)) 0 (Mat.zeros W H) (Mat.zeros W H)
      (fun q hq => by
        have := hbt q hq
        simp only [Mat.zeros]
        omega) rfl rfl, ?_⟩
    show indexAfter (cands.take (i + 1)) 0 (p.1, p.2) 0 = i % 65536
    rw [htake, indexAfter_append_singleton, List.length_take, Nat.zero_add,
      Nat.min_eq_left (le_of_lt hi)]
  · intro k c hk
    rw [hits_suppress] at hk
    obtain ⟨h1, hmem, hlt, h4, h5, -⟩ := emitted_position fl wr hr cands r W H k c hk
    obtain ⟨last, hl1, hl2, hl3, hl4⟩ := indexAfter_mem cands 0 (rawOf r c) 0 hmem
    rw [Nat.zero_add] at hl4
    rw [hl4] at h1 h4 h5 hlt
    refine ⟨last, hl2, hl3, ?_, h1, hlt, ?_, ?_, ?_, ?_⟩
    · show indexAfter cands 0 (c.1 - (r : Int), c.2 - (r : Int)) 0 = last % 65536
      exact hl4
    · simp only [List.nil_append]
      rw [h5, h4]
      rfl
    · exact (filterMap_getElem?_length descs (validIdxs cands r W H)
        (fun i hi => lt_of_lt_of_le (validIdxs_lt cands r W H i hi) (le_of_eq hd.symm))).2 k _ h1
    · intro hN
      exact Nat.mod_eq_of_lt (by omega)
    · intro hge
      have := Nat.mod_lt last (by decide : 0 < 65536)
      omega

/-- Instance of C19 on three candidates in a 16 x 16 grid with radius 2. -/
theorem C19_index_map_sixteen_bits_witness :
    (InBounds 16 16 [(1, 1), (6, 6), (1, 1)] ∧
      [10, 11, 12].length = [((1 : Int), (1 : Int)), (6, 6), (1, 1)].length) ∧
    ∃ g ix kps idxs ds, suppress [(1, 1), (6, 6), (1, 1)] 2 16 16 = some (g, ix) ∧
      thirdPass intOps [(1, 1), (6, 6), (1, 1)] g ix [] 2 16 16 3 5 = some (kps, idxs) ∧
      NonMaximalSuppression intOps [(1, 1), (6, 6), (1, 1)] [10, 11, 12] [] 2 16 16 3 5 =
        some (kps, ds) ∧
      (∀ (i : Nat) (p : Int × Int), [((1 : Int), (1 : Int)), (6, 6), (1, 1)][i]? = some p →
        ∃ g1 ix1, firstPass ([((1 : Int), (1 : Int)), (6, 6), (1, 1)].take (i + 1)) 0
            (Mat.zeros 16 16) (Mat.zeros 16 16) = some (g1, ix1) ∧
          ix1.data p.2 p.1 = i % 65536) ∧
      (∀ (k : Nat) (c : Int × Int), (hits g 2 16 16)[k]? = some c →
        ∃ last : Nat, [((1 : Int), (1 : Int)), (6, 6), (1, 1)][last]? = some (rawOf 2 c) ∧
          (∀ j : Nat, last < j →
            [((1 : Int), (1 : Int)), (6, 6), (1, 1)][j]? ≠ some (rawOf 2 c)) ∧
          cellIndex ix 2 c = last % 65536 ∧ idxs[k]? = some (last % 65536) ∧
          last % 65536 < [((1 : Int), (1 : Int)), (6, 6), (1, 1)].length ∧
          kps[k]? = ([((1 : Int), (1 : Int)), (6, 6), (1, 1)][last % 65536]?).map
            (emit intOps 3 5) ∧
          ds[k]? = [10, 11, 12][last % 65536]? ∧
          ([((1 : Int), (1 : Int)), (6, 6), (1, 1)].length ≤ 65536 → last % 65536 = last) ∧
          (65536 ≤ last → last % 65536 < last)) :=
  ⟨⟨by decide, by decide⟩,
    C19_index_map_sixteen_bits intOps [(1, 1), (6, 6), (1, 1)] [10, 11, 12] 2 16 16 3 5
      (by decide) (by decide)⟩

end gcnv2
